import Mathlib

/-!
Verification of the jtool JSON normalize/diff core.

The program's shared value model (decoded JSON: `map[string]any`, `[]any`,
`float64`, `string`, `bool`, `nil`) is embedded as the inductive `Value`.
Objects are represented as association lists (Go maps are unordered with
unique keys; list order is irrelevant to every theorem below because the
code sorts keys before any observable traversal).  Numbers are embedded as
rationals: the program performs no arithmetic on numbers other than exact
comparison (`==`, `<`) and `math.Trunc`, and both are exact on the (finite)
float64 values produced by JSON decoding, so the rational embedding is
faithful for every operation the code performs.  NaN and the infinities are
not representable, matching `encoding/json`, which never produces them.
-/

inductive Value where
  | null
  | bool (b : Bool)
  | num (q : ℚ)
  | str (s : String)
  | arr (elems : List Value)
  | obj (entries : List (String × Value))

/- Embedding of `reflect.DeepEqual` restricted to decoded JSON values
(diff.go line 128): structural equality. -/
mutual
def deepEqual : Value → Value → Bool
  | .null, .null => true
  | .bool a, .bool b => a = b
  | .num a, .num b => a = b
  | .str a, .str b => a = b
  | .arr a, .arr b => deepEqualList a b
  | .obj a, .obj b => deepEqualEntries a b
  | _, _ => false
def deepEqualList : List Value → List Value → Bool
  | [], [] => true
  | x :: xs, y :: ys => deepEqual x y && deepEqualList xs ys
  | _, _ => false
def deepEqualEntries : List (String × Value) → List (String × Value) → Bool
  | [], [] => true
  | (k, v) :: xs, (k', v') :: ys => k = k' && deepEqual v v' && deepEqualEntries xs ys
  | _, _ => false
end

/-- Member-wise induction principle for `Value` (the nested lists are
traversed through membership). -/
def Value.recMem {P : Value → Prop}
    (h0 : P .null) (h1 : ∀ b, P (.bool b)) (h2 : ∀ q, P (.num q)) (h3 : ∀ s, P (.str s))
    (h4 : ∀ l, (∀ x ∈ l, P x) → P (.arr l))
    (h5 : ∀ m, (∀ kv ∈ m, P kv.2) → P (.obj m)) :
    ∀ v, P v := fun v =>
  match v with
  | .null => h0
  | .bool b => h1 b
  | .num q => h2 q
  | .str s => h3 s
  | .arr l => h4 l (fun x hx => Value.recMem h0 h1 h2 h3 h4 h5 x)
  | .obj m => h5 m (fun kv hkv => Value.recMem h0 h1 h2 h3 h4 h5 kv.2)
termination_by v => sizeOf v
decreasing_by
  · have hs := List.sizeOf_lt_of_mem hx
    simp only [Value.arr.sizeOf_spec]
    omega
  · have hs := List.sizeOf_lt_of_mem hkv
    have hs2 : sizeOf kv.2 < sizeOf kv := by
      obtain ⟨a, b⟩ := kv
      simp only [Prod.mk.sizeOf_spec]
      omega
    simp only [Value.obj.sizeOf_spec]
    omega

theorem deepEqual_iff : ∀ a b : Value, deepEqual a b = true ↔ a = b := by
  intro a
  induction a using Value.recMem with
  | h0 => intro b; cases b <;> simp [deepEqual]
  | h1 x => intro b; cases b <;> simp [deepEqual]
  | h2 x => intro b; cases b <;> simp [deepEqual]
  | h3 x => intro b; cases b <;> simp [deepEqual]
  | h4 l ih =>
    intro b
    cases b <;> simp [deepEqual]
    case arr l' =>
      induction l generalizing l' with
      | nil => cases l' <;> simp [deepEqualList]
      | cons x xs ihx =>
        cases l' with
        | nil => simp [deepEqualList]
        | cons y ys =>
          simp only [deepEqualList, Bool.and_eq_true, List.cons.injEq]
          rw [ih x (by simp)]
          constructor
          · rintro ⟨hh, h2⟩
            exact ⟨hh, (ihx (fun z hz => ih z (by simp [hz])) ys).mp h2⟩
          · rintro ⟨hh, h2⟩
            exact ⟨hh, (ihx (fun z hz => ih z (by simp [hz])) ys).mpr h2⟩
  | h5 m ih =>
    intro b
    cases b <;> simp [deepEqual]
    case obj m' =>
      induction m generalizing m' with
      | nil => cases m' <;> simp [deepEqualEntries]
      | cons x xs ihx =>
        cases m' with
        | nil => simp [deepEqualEntries]
        | cons y ys =>
          obtain ⟨k, v⟩ := x
          obtain ⟨k', v'⟩ := y
          simp only [deepEqualEntries, Bool.and_eq_true, decide_eq_true_eq,
            List.cons.injEq, Prod.mk.injEq]
          rw [ih (k, v) (by simp)]
          constructor
          · rintro ⟨⟨hk, hv⟩, h2⟩
            exact ⟨⟨hk, hv⟩, (ihx (fun z hz => ih z (by simp [hz])) ys).mp h2⟩
          · rintro ⟨⟨hk, hv⟩, h2⟩
            exact ⟨⟨hk, hv⟩, (ihx (fun z hz => ih z (by simp [hz])) ys).mpr h2⟩

instance : DecidableEq Value := fun a b =>
  decidable_of_iff (deepEqual a b = true) (deepEqual_iff a b)

/-- `Options` (normalize/options.go): the flat normalization configuration. -/
structure Options where
  sortKeys : Bool
  normalizeNumbers : Bool
  trimStrings : Bool
  nullEqualsAbsent : Bool
  sortArrays : Bool
  sortArraysByKey : String
deriving DecidableEq

/-- `DefaultOptions` (normalize/options.go). -/
def defaultOptions : Options :=
  { sortKeys := true, normalizeNumbers := true, trimStrings := false,
    nullEqualsAbsent := false, sortArrays := false, sortArraysByKey := "" }

/-- `NoNormalization` (normalize/options.go). -/
def noNormalization : Options :=
  { sortKeys := false, normalizeNumbers := false, trimStrings := false,
    nullEqualsAbsent := false, sortArrays := false, sortArraysByKey := "" }

/-- `typeOrder` (normalize.go): numeric rank of a JSON type for sorting.
The Go `default:` branch (rank 6) is unreachable for decoded JSON and has
no counterpart in the closed model. -/
def typeOrder : Value → Int
  | .null => 0
  | .bool _ => 1
  | .num _ => 2
  | .str _ => 3
  | .arr _ => 4
  | .obj _ => 5

/-- `strings.Compare`: sign of the lexicographic comparison.  Lean's
`String` order is by code points, which coincides with Go's byte-wise
comparison of UTF-8 encodings. -/
def stringsCompare (a b : String) : Int :=
  if a < b then -1 else if b < a then 1 else 0

/-- `compareValues` in normalize.go: the sort comparator over values
(nil < bool < number < string < array < object; arrays/objects tie). -/
def compareValuesOrd (a b : Value) : Int :=
  if typeOrder a ≠ typeOrder b then typeOrder a - typeOrder b
  else
    match a, b with
    | .null, _ => 0
    | .bool av, .bool bv => if av = bv then 0 else if av = false then -1 else 1
    | .num av, .num bv => if av < bv then -1 else if av > bv then 1 else 0
    | .str av, .str bv => stringsCompare av bv
    | _, _ => 0

/-- One step of `sort.SliceStable`'s insertion sort, acting on the reversed
already-processed prefix: the new element moves left while `less` holds
against its predecessor. -/
def insertRev (less : α → α → Bool) (x : α) : List α → List α
  | [] => [x]
  | y :: ys => if less x y then y :: insertRev less x ys else x :: y :: ys

/-- Stable insertion sort of a whole list: the algorithm
`sort.SliceStable` runs on each block of at most 20 elements (and hence
all `sort.SliceStable` runs for slices of length at most 20), and the
result `sort.Strings` produces on a duplicate-free list under the total
string order. The full `sort.SliceStable` is `sliceStableGo` below. -/
def insertionSortGo (less : α → α → Bool) (l : List α) : List α :=
  (l.foldl (fun acc x => insertRev less x acc) []).reverse

/-- `m[key]` on the association-list representation of a Go map
(first binding wins; Go maps have unique keys). -/
def listLookup (k : String) : List (String × Value) → Option Value
  | [] => none
  | (k', v) :: rest => if k = k' then some v else listLookup k rest

/-- The closure passed to `sort.SliceStable` by `sortArrayByKey`
(normalize.go lines 146-166): non-objects and objects missing the key
compare as "no preference" (false). -/
def lessByKey (key : String) (a b : Value) : Bool :=
  match a, b with
  | .obj ma, .obj mb =>
    match listLookup key ma, listLookup key mb with
    | some iv, some jv => compareValuesOrd iv jv < 0
    | _, _ => false
  | _, _ => false

/-!
### `sort.SliceStable` itself (Go standard library, sort.go)

The exact algorithm: stable insertion sort on blocks of 20 elements
followed by a cascade of `symMerge` merges.  This matters because
`lessByKey` is not a transitive ordering (a keyless element ties with
everything), and on such comparators the symMerge phase behaves
differently from a plain insertion sort, so the full algorithm must be
modeled.  Every Go loop is rendered as structural recursion on an explicit
iteration-count argument whose initial value is the loop's exact iteration
bound (noted per function); the zero case of each such recursion is
therefore never reached on the calls the sort performs.  Element reads
`data.Less(i, j)` become `lessAt`, `data.Swap(i, j)` becomes `swapL`; both
are total, with out-of-range behavior irrelevant because the algorithm
only touches indices inside the slice.
-/

/-- `data.Less(i, j)`: compare the elements at two indices. -/
def lessAt (less : α → α → Bool) (l : List α) (i j : Nat) : Bool :=
  match l.get? i, l.get? j with
  | some x, some y => less x y
  | _, _ => false

/-- `data.Swap(i, j)`. -/
def swapL (l : List α) (i j : Nat) : List α :=
  match l.get? i, l.get? j with
  | some x, some y => (l.set i y).set j x
  | _, _ => l

/-- `swapRange(data, a, b, n)`: swap the length-`n` ranges at `a` and `b`
(recursion on the remaining count `n`). -/
def swapRangeGo (l : List α) (a b : Nat) : Nat → List α
  | 0 => l
  | n + 1 => swapRangeGo (swapL l a b) (a + 1) (b + 1) n

/-- The loop of `rotate(data, a, m, b)` (gcd-style block exchange).  The
iteration count argument starts at `i + j`, which strictly decreases every
iteration (by `min i j ≥ 1` while `i ≠ j`, both staying positive), so the
fuel-0 case — which performs the loop's exit continuation — is reached
only with `i = j`. -/
def rotateAux (l : List α) (m : Nat) : Nat → Nat → Nat → List α
  | i, j, 0 => swapRangeGo l (m - i) m i
  | i, j, fuel + 1 =>
    if i = j then swapRangeGo l (m - i) m i
    else if i > j then rotateAux (swapRangeGo l (m - i) m j) m (i - j) j fuel
    else rotateAux (swapRangeGo l (m - i) (m + j - i) i) m i (j - i) fuel

/-- `rotate(data, a, m, b)`. -/
def rotateGo (l : List α) (a m b : Nat) : List α :=
  rotateAux l m (m - a) (b - m) ((m - a) + (b - m))

/-- The binary search of `symMerge`'s `m-a == 1` branch: lowest `i` in
`[m, b)` with `!data.Less(i, a)`.  Iteration bound: `j - i` halves each
step, so fuel `b - m` suffices. -/
def symSearchA (less : α → α → Bool) (l : List α) (a : Nat) : Nat → Nat → Nat → Nat
  | i, j, 0 => i
  | i, j, fuel + 1 =>
    if i < j then
      let h := (i + j) / 2
      if lessAt less l h a then symSearchA less l a (h + 1) j fuel
      else symSearchA less l a i h fuel
    else i

/-- The binary search of `symMerge`'s `b-m == 1` branch: lowest `i` in
`[a, m)` with `data.Less(m, i)`.  Fuel `m - a` suffices as above. -/
def symSearchB (less : α → α → Bool) (l : List α) (m : Nat) : Nat → Nat → Nat → Nat
  | i, j, 0 => i
  | i, j, fuel + 1 =>
    if i < j then
      let h := (i + j) / 2
      if !(lessAt less l m h) then symSearchB less l m (h + 1) j fuel
      else symSearchB less l m i h fuel
    else i

/-- The binary search of `symMerge`'s general branch.  Fuel `r - start`
suffices as above. -/
def symSearchMid (less : α → α → Bool) (l : List α) (p : Nat) : Nat → Nat → Nat → Nat
  | start, r, 0 => start
  | start, r, fuel + 1 =>
    if start < r then
      let c := (start + r) / 2
      if !(lessAt less l (p - c) c) then symSearchMid less l p (c + 1) r fuel
      else symSearchMid less l p start c fuel
    else start

/-- `for k := a; k < stop; k++ { data.Swap(k, k+1) }` — the swap loop of
`symMerge`'s `m-a == 1` branch (called with `stop = i-1`, fuel
`stop - k`). -/
def bubbleUp (l : List α) (k stop : Nat) : Nat → List α
  | 0 => l
  | fuel + 1 => if k < stop then bubbleUp (swapL l k (k + 1)) (k + 1) stop fuel else l

/-- `for k := m; k > i; k-- { data.Swap(k, k-1) }` — the swap loop of
`symMerge`'s `b-m == 1` branch (fuel `k - i`). -/
def bubbleDown (l : List α) (k i : Nat) : Nat → List α
  | 0 => l
  | fuel + 1 => if i < k then bubbleDown (swapL l k (k - 1)) (k - 1) i fuel else l

/-- `symMerge(data, a, m, b)` (sort.go).  The recursion argument starts at
`b - a`; the two recursive calls have spans `start - a < mid - a < b - a`
and `b - mid < b - a` (the general branch only runs with
`a + 2 ≤ m ≤ b - 2`, so `a < mid < b`), hence it never reaches zero on
in-contract calls. -/
def symMergeAux (less : α → α → Bool) (l : List α) (a m b : Nat) : Nat → List α
  | 0 => l
  | fuel + 1 =>
    if m - a = 1 then
      let i := symSearchA less l a m b (b - m)
      bubbleUp l a (i - 1) ((i - 1) - a)
    else if b - m = 1 then
      let i := symSearchB less l m a m (m - a)
      bubbleDown l m i (m - i)
    else
      let mid := (a + b) / 2
      let n := mid + m
      let start0 := if m > mid then n - b else a
      let r0 := if m > mid then mid else m
      let p := n - 1
      let start := symSearchMid less l p start0 r0 (r0 - start0)
      let endI := n - start
      let l1 := if start < m ∧ m < endI then rotateGo l start m endI else l
      let l2 := if a < start ∧ start < mid then symMergeAux less l1 a start mid fuel else l1
      if mid < endI ∧ endI < b then symMergeAux less l2 mid endI b fuel else l2

def symMergeGo (less : α → α → Bool) (l : List α) (a m b : Nat) : List α :=
  symMergeAux less l a m b (b - a)

/-- `insertionSort(data, a, b)`: Go's in-place stable insertion sort of the
subrange `[a, b)`, expressed as the functional stable insertion sort of
that subrange spliced back between the untouched prefix and suffix. -/
def insertionSortRange (less : α → α → Bool) (l : List α) (a b : Nat) : List α :=
  l.take a ++ insertionSortGo less ((l.take b).drop a) ++ l.drop b

/-- The first loop of `stable(data, n)`: insertion-sort consecutive blocks
`[a, b)` while `b ≤ n`, advancing by `blockSize = 20`; returns the list
and the final `a`.  Fuel `n + 1` bounds the iterations (`b` grows by 20
each time). -/
def insBlocks (less : α → α → Bool) (l : List α) (a b n : Nat) : Nat → List α × Nat
  | 0 => (l, a)
  | fuel + 1 =>
    if b ≤ n then insBlocks less (insertionSortRange less l a b) b (b + 20) n fuel
    else (l, a)

/-- The inner loop of `stable`'s merge phase: `symMerge` adjacent block
pairs while `b ≤ n`; returns the list and the final `a`.  Fuel `n + 1`
bounds the iterations. -/
def mergeRow (less : α → α → Bool) (l : List α) (a b blockSize n : Nat) : Nat → List α × Nat
  | 0 => (l, a)
  | fuel + 1 =>
    if b ≤ n then
      mergeRow less (symMergeGo less l a (a + blockSize) b) b (b + 2 * blockSize)
        blockSize n fuel
    else (l, a)

/-- The outer loop of `stable`'s merge phase: double `blockSize` until it
reaches `n`, merging one row per iteration plus the trailing partial
merge.  Fuel `n + 1` bounds the iterations (`blockSize` doubles from 20). -/
def mergeLoop (less : α → α → Bool) (l : List α) (blockSize n : Nat) : Nat → List α
  | 0 => l
  | fuel + 1 =>
    if blockSize < n then
      let pr := mergeRow less l 0 (2 * blockSize) blockSize n (n + 1)
      let m := pr.2 + blockSize
      let l2 := if m < n then symMergeGo less pr.1 pr.2 m n else pr.1
      mergeLoop less l2 (2 * blockSize) n fuel
    else l

/-- `sort.SliceStable` = `stable(data, n)` (sort.go): insertion sort on
blocks of 20, then the symMerge cascade. -/
def sliceStableGo (less : α → α → Bool) (l : List α) : List α :=
  let n := l.length
  let pr := insBlocks less l 0 20 n (n + 1)
  let l2 := insertionSortRange less pr.1 pr.2 n
  mergeLoop less l2 20 n (n + 1)

/-- `sortArrayByKey` (normalize.go): `sort.SliceStable` with the by-key
comparator. -/
def sortArrayByKey (arr : List Value) (key : String) : List Value :=
  sliceStableGo (lessByKey key) arr

/-- The closure passed to `sort.SliceStable` by `sortArray`. -/
def lessOrd (a b : Value) : Bool := compareValuesOrd a b < 0

/-- `sortArray` (normalize.go): `sort.SliceStable` with the total-order
comparator. -/
def sortArray (arr : List Value) : List Value :=
  sliceStableGo lessOrd arr

/-- `math.Trunc`: round toward zero.  Exact on every finite float64. -/
def mathTrunc (q : ℚ) : ℚ := if 0 ≤ q then ((⌊q⌋ : Int) : ℚ) else ((⌈q⌉ : Int) : ℚ)

/-- `normalizeNumber` (normalize.go lines 112-127).  The Go guards
`!math.IsInf(n, 0) && !math.IsNaN(n)` are omitted: neither value is
representable in the model (JSON decoding never produces them). -/
def normalizeNumber (n : ℚ) (opts : Options) : ℚ :=
  if ¬ opts.normalizeNumbers then n
  else if n = mathTrunc n then mathTrunc n
  else n

/-- The whitespace predicate of `strings.TrimSpace` (`unicode.IsSpace`),
restricted to its ASCII/Latin-1 cases; the remaining Unicode space
category code points behave identically for every theorem below. -/
def isSpaceGo (c : Char) : Bool :=
  c = ' ' || c = '\t' || c = '\n' || c = (Char.ofNat 11) || c = (Char.ofNat 12) ||
  c = '\r' || c = (Char.ofNat 0x85) || c = (Char.ofNat 0xA0)

/-- `strings.TrimSpace`: symmetric trim of leading and trailing whitespace. -/
def trimSpace (s : String) : String :=
  String.mk (((s.data.dropWhile isSpaceGo).reverse.dropWhile isSpaceGo).reverse)

/-- `normalizeString` (normalize.go). -/
def normalizeString (s : String) (opts : Options) : String :=
  if opts.trimStrings then trimSpace s else s

/-- The tail of `normalizeArray` (normalize.go lines 88-93): sort the
already-normalized elements if requested; `SortArraysByKey` wins over
`SortArrays`. -/
def sortIfRequested (l : List Value) (opts : Options) : List Value :=
  if opts.sortArraysByKey ≠ "" then sortArrayByKey l opts.sortArraysByKey
  else if opts.sortArrays then sortArray l
  else l

/- `normalize.Value` together with the element loops of `normalizeArray`
and `normalizeObject` (normalize.go lines 30-96).  `normalizeEntries`
iterates the object entries, dropping a binding exactly when
`NullEqualsAbsent` is set and the value is null. -/
mutual
def normalizeValue (v : Value) (opts : Options) : Value :=
  match v with
  | .null => .null
  | .bool b => .bool b
  | .num n => .num (normalizeNumber n opts)
  | .str s => .str (normalizeString s opts)
  | .arr l => .arr (sortIfRequested (normalizeList l opts) opts)
  | .obj m => .obj (normalizeEntries m opts)
def normalizeList (l : List Value) (opts : Options) : List Value :=
  match l with
  | [] => []
  | x :: xs => normalizeValue x opts :: normalizeList xs opts
def normalizeEntries (m : List (String × Value)) (opts : Options) :
    List (String × Value) :=
  match m with
  | [] => []
  | (k, v) :: rest =>
    if opts.nullEqualsAbsent ∧ v = .null then normalizeEntries rest opts
    else (k, normalizeValue v opts) :: normalizeEntries rest opts
end

/-- `DiffType` (diff/types.go). -/
inductive DiffType where
  | equal
  | added
  | removed
  | changed
deriving DecidableEq, Repr

/- `DiffNode` (diff/types.go): one node of the diff tree (recursive through
`children`, hence an inductive with explicit projections). -/
inductive DiffNode where
  | mk (path : String) (type : DiffType) (left : Option Value)
       (right : Option Value) (children : List DiffNode)

def DiffNode.path : DiffNode → String
  | .mk p _ _ _ _ => p

def DiffNode.type : DiffNode → DiffType
  | .mk _ t _ _ _ => t

def DiffNode.left : DiffNode → Option Value
  | .mk _ _ l _ _ => l

def DiffNode.right : DiffNode → Option Value
  | .mk _ _ _ r _ => r

def DiffNode.children : DiffNode → List DiffNode
  | .mk _ _ _ _ c => c

@[simp] theorem DiffNode.path_mk (p t l r c) : (DiffNode.mk p t l r c).path = p := rfl

@[simp] theorem DiffNode.type_mk (p t l r c) : (DiffNode.mk p t l r c).type = t := rfl

@[simp] theorem DiffNode.left_mk (p t l r c) : (DiffNode.mk p t l r c).left = l := rfl

@[simp] theorem DiffNode.right_mk (p t l r c) : (DiffNode.mk p t l r c).right = r := rfl

@[simp] theorem DiffNode.children_mk (p t l r c) : (DiffNode.mk p t l r c).children = c := rfl

/-- `DiffStats` (diff/types.go). -/
structure DiffStats where
  added : Nat
  removed : Nat
  changed : Nat
  equal : Nat
deriving DecidableEq, Repr

/-- `DiffResult` (diff/types.go). -/
structure DiffResult where
  root : DiffNode
  stats : DiffStats

theorem listLookup_mem {k : String} {m : List (String × Value)} {v : Value}
    (h : listLookup k m = some v) : (k, v) ∈ m := by
  induction m with
  | nil => simp [listLookup] at h
  | cons p rest ih =>
    obtain ⟨k', v'⟩ := p
    by_cases hk : k = k'
    · simp [listLookup, hk] at h
      subst hk; subst h; exact List.mem_cons_self _ _
    · simp [listLookup, hk] at h
      exact List.mem_cons_of_mem _ (ih h)

/-- The parent-kind aggregation both `compareObjects` and `compareArrays`
perform (start at Equal, flip to Changed on any non-Equal child). -/
def aggKind (children : List DiffNode) : DiffType :=
  if children.all (fun c => c.type = DiffType.equal) then .equal else .changed

/-- The key list `compareObjects` builds: the union of both key sets,
deduplicated (Go uses a `map[string]bool`) and sorted (`sort.Strings`). -/
def sortedUnionKeys (lm rm : List (String × Value)) : List String :=
  insertionSortGo (fun a b : String => decide (a < b))
    ((lm.map Prod.fst ++ rm.map Prod.fst).dedup)

/- `compareValues`, `compareObjects` and `compareArrays` from diff.go,
inlined into one recursive function.  The object branch visits the sorted
union of keys; a `none, none` lookup result is unreachable (every visited
key is in at least one map) and mirrors Go's zero-value fallback.  The
array branch walks indices `0 .. max(len l, len r) - 1`; the out-of-range
side reads as `none`. -/
def compareValuesDiff (left right : Value) (path : String) : DiffNode :=
  if left = Value.null ∧ right = Value.null then .mk path .equal none none []
  else if left = Value.null then .mk path .added none (some right) []
  else if right = Value.null then .mk path .removed (some left) none []
  else
    match left, right with
    | .obj lm, .obj rm =>
      let children := (sortedUnionKeys lm rm).map fun k =>
        let childPath := path ++ "." ++ k
        match h1 : listLookup k lm, h2 : listLookup k rm with
        | none, rv? => .mk childPath .added none rv? []
        | some lv, none => .mk childPath .removed (some lv) none []
        | some lv, some rv => compareValuesDiff lv rv childPath
      .mk path (aggKind children) none none children
    | .arr la, .arr ra =>
      let maxLen := if ra.length > la.length then ra.length else la.length
      let children := (List.range maxLen).map fun i =>
        let childPath := path ++ "[" ++ toString i ++ "]"
        match h1 : la.get? i, h2 : ra.get? i with
        | none, rv? => .mk childPath .added none rv? []
        | some lv, none => .mk childPath .removed (some lv) none []
        | some lv, some rv => compareValuesDiff lv rv childPath
      .mk path (aggKind children) none none children
    | l, r =>
      if typeOrder l ≠ typeOrder r then .mk path .changed (some l) (some r) []
      else if deepEqual l r then .mk path .equal none none []
      else .mk path .changed (some l) (some r) []
termination_by sizeOf left + sizeOf right
decreasing_by
  · have hl := List.sizeOf_lt_of_mem (listLookup_mem h1)
    have hr := List.sizeOf_lt_of_mem (listLookup_mem h2)
    have hl2 : sizeOf lv < sizeOf (k, lv) := by
      simp only [Prod.mk.sizeOf_spec]
      omega
    have hr2 : sizeOf rv < sizeOf (k, rv) := by
      simp only [Prod.mk.sizeOf_spec]
      omega
    simp only [Value.obj.sizeOf_spec]
    omega
  · have hl := List.sizeOf_lt_of_mem (List.get?_mem h1)
    have hr := List.sizeOf_lt_of_mem (List.get?_mem h2)
    simp only [Value.arr.sizeOf_spec]
    omega

/-- Increment the counter matching a leaf's kind (the `switch` in
`walkAndCount`). -/
def bumpStats (stats : DiffStats) : DiffType → DiffStats
  | .equal => { stats with equal := stats.equal + 1 }
  | .added => { stats with added := stats.added + 1 }
  | .removed => { stats with removed := stats.removed + 1 }
  | .changed => { stats with changed := stats.changed + 1 }

/- `walkAndCount` (diff.go): count leaf nodes only, then recurse into the
children in order. -/
mutual
def walkAndCount (stats : DiffStats) (node : DiffNode) : DiffStats :=
  match node with
  | .mk _ t _ _ children =>
    let s := if children.isEmpty then bumpStats stats t else stats
    walkList s children
def walkList (stats : DiffStats) (l : List DiffNode) : DiffStats :=
  match l with
  | [] => stats
  | c :: cs => walkList (walkAndCount stats c) cs
end

/-- `calculateStats` (diff.go). -/
def calculateStats (node : DiffNode) : DiffStats :=
  walkAndCount ⟨0, 0, 0, 0⟩ node

/-- `diff.Compare` (diff.go lines 19-27). -/
def Compare (left right : Value) : DiffResult :=
  let root := compareValuesDiff left right ""
  { root := root, stats := calculateStats root }

/-- `diff.CompareWithOptions` (diff.go lines 40-52): normalize both sides,
then compare. -/
def CompareWithOptions (left right : Value) (opts : Options) : DiffResult :=
  let leftNorm := normalizeValue left opts
  let rightNorm := normalizeValue right opts
  let root := compareValuesDiff leftNorm rightNorm ""
  { root := root, stats := calculateStats root }

/-- A 21-element array: the objects carry the sort key `"k"` with values
0, 1 or 2; the rest are nulls, which the by-key comparator ties with
everything.  With 21 elements `sort.SliceStable`
leaves the insertion-sort regime and runs `symMerge`, whose binary
searches assume a transitive ordering that `lessByKey` does not provide:
sorting this array twice gives two different results. -/
def c1FailingArray : List Value :=
  [Value.null, Value.obj [("k", .num 0)], Value.obj [("k", .num 0)],
   Value.null, Value.obj [("k", .num 0)], Value.obj [("k", .num 0)],
   Value.null, Value.obj [("k", .num 0)], Value.obj [("k", .num 0)],
   Value.null, Value.obj [("k", .num 2)],
   Value.null, Value.null, Value.null, Value.null,
   Value.obj [("k", .num 0)], Value.null, Value.obj [("k", .num 0)],
   Value.null, Value.obj [("k", .num 0)], Value.obj [("k", .num 1)]]

/-- Options selecting only by-key array sorting, as `jtool -sort-arrays-by-key k`. -/
def c1FailingOptions : Options :=
  { sortKeys := false, normalizeNumbers := false, trimStrings := false,
    nullEqualsAbsent := false, sortArrays := false, sortArraysByKey := "k" }

/-! ### Generic facts about the stable insertion sort -/

theorem insertRev_perm (less : α → α → Bool) (x : α) (l : List α) :
    List.Perm (insertRev less x l) (x :: l) := by
  induction l with
  | nil => simp [insertRev]
  | cons y ys ih =>
    simp only [insertRev]
    by_cases h : less x y
    · simp only [h, if_true]
      exact (ih.cons y).trans (List.Perm.swap x y ys)
    · simp [h]

theorem foldl_insertRev_perm (less : α → α → Bool) (l acc : List α) :
    List.Perm (l.foldl (fun acc x => insertRev less x acc) acc) (l ++ acc) := by
  induction l generalizing acc with
  | nil => simp
  | cons x xs ih =>
    simp only [List.foldl_cons]
    have h1 := ih (insertRev less x acc)
    have h2 : List.Perm (xs ++ insertRev less x acc) (xs ++ (x :: acc)) :=
      List.Perm.append_left xs (insertRev_perm less x acc)
    exact h1.trans (h2.trans List.perm_middle)

theorem insertionSortGo_perm (less : α → α → Bool) (l : List α) :
    List.Perm (insertionSortGo less l) l := by
  unfold insertionSortGo
  have h1 := List.reverse_perm (l.foldl (fun acc x => insertRev less x acc) [])
  have h2 := foldl_insertRev_perm less l []
  simpa using h1.trans h2

theorem perm_ite (c : Prop) [Decidable c] (f : List α → List α)
    (hf : ∀ x, List.Perm (f x) x) (l : List α) :
    List.Perm (if c then f l else l) l := by
  split_ifs with h
  · exact hf l
  · exact List.Perm.refl l

theorem set_cons_perm (z : α) : ∀ (t : List α) (k : Nat) (y : α), t.get? k = some y →
    List.Perm (y :: t.set k z) (z :: t) := by
  intro t
  induction t with
  | nil => intro k y h; simp at h
  | cons w t' ih =>
    intro k y h
    cases k with
    | zero =>
      rw [List.get?_cons_zero] at h
      have hy : w = y := Option.some.inj h
      rw [← hy]
      simp only [List.set_cons_zero]
      exact List.Perm.swap z w t'
    | succ k' =>
      rw [List.get?_cons_succ] at h
      simp only [List.set_cons_succ]
      exact (List.Perm.swap w y (t'.set k' z)).trans
        (((ih k' y h).cons w).trans (List.Perm.swap z w t'))

theorem swap_sets_perm : ∀ (l : List α) (i j : Nat) (x y : α),
    l.get? i = some x → l.get? j = some y →
    List.Perm ((l.set i y).set j x) l := by
  intro l
  induction l with
  | nil => intro i j x y hi hj; simp at hi
  | cons z t ih =>
    intro i j x y hi hj
    cases i with
    | zero =>
      rw [List.get?_cons_zero] at hi
      have hx : z = x := Option.some.inj hi
      cases j with
      | zero =>
        rw [List.get?_cons_zero] at hj
        have hy : z = y := Option.some.inj hj
        rw [← hx, ← hy]
        simp
      | succ j' =>
        rw [List.get?_cons_succ] at hj
        rw [← hx]
        simp only [List.set_cons_zero, List.set_cons_succ]
        exact set_cons_perm z t j' y hj
    | succ i' =>
      rw [List.get?_cons_succ] at hi
      cases j with
      | zero =>
        rw [List.get?_cons_zero] at hj
        have hy : z = y := Option.some.inj hj
        rw [← hy]
        simp only [List.set_cons_succ, List.set_cons_zero]
        exact set_cons_perm z t i' x hi
      | succ j' =>
        rw [List.get?_cons_succ] at hj
        simp only [List.set_cons_succ]
        exact (ih i' j' x y hi hj).cons z

theorem swapL_perm (l : List α) (i j : Nat) : List.Perm (swapL l i j) l := by
  unfold swapL
  cases hi : l.get? i with
  | none => exact List.Perm.refl l
  | some x =>
    cases hj : l.get? j with
    | none => exact List.Perm.refl l
    | some y => exact swap_sets_perm l i j x y hi hj

theorem swapRangeGo_perm : ∀ (n : Nat) (l : List α) (a b : Nat),
    List.Perm (swapRangeGo l a b n) l := by
  intro n
  induction n with
  | zero => intro l a b; exact List.Perm.refl l
  | succ n ih => intro l a b; exact (ih _ _ _).trans (swapL_perm l a b)

theorem bubbleUp_perm : ∀ (fuel : Nat) (l : List α) (k stop : Nat),
    List.Perm (bubbleUp l k stop fuel) l := by
  intro fuel
  induction fuel with
  | zero => intro l k stop; exact List.Perm.refl l
  | succ fuel ih =>
    intro l k stop
    simp only [bubbleUp]
    split_ifs with h
    · exact (ih _ _ _).trans (swapL_perm l k (k + 1))
    · exact List.Perm.refl l

theorem bubbleDown_perm : ∀ (fuel : Nat) (l : List α) (k i : Nat),
    List.Perm (bubbleDown l k i fuel) l := by
  intro fuel
  induction fuel with
  | zero => intro l k i; exact List.Perm.refl l
  | succ fuel ih =>
    intro l k i
    simp only [bubbleDown]
    split_ifs with h
    · exact (ih _ _ _).trans (swapL_perm l k (k - 1))
    · exact List.Perm.refl l

theorem rotateAux_perm : ∀ (fuel : Nat) (l : List α) (m i j : Nat),
    List.Perm (rotateAux l m i j fuel) l := by
  intro fuel
  induction fuel with
  | zero => intro l m i j; exact swapRangeGo_perm _ _ _ _
  | succ fuel ih =>
    intro l m i j
    simp only [rotateAux]
    split_ifs with h1 h2
    · exact swapRangeGo_perm _ _ _ _
    · exact (ih _ _ _ _).trans (swapRangeGo_perm _ _ _ _)
    · exact (ih _ _ _ _).trans (swapRangeGo_perm _ _ _ _)

theorem rotateGo_perm (l : List α) (a m b : Nat) : List.Perm (rotateGo l a m b) l :=
  rotateAux_perm _ _ _ _ _

theorem symMergeAux_perm (less : α → α → Bool) : ∀ (fuel : Nat) (l : List α) (a m b : Nat),
    List.Perm (symMergeAux less l a m b fuel) l := by
  intro fuel
  induction fuel with
  | zero => intro l a m b; exact List.Perm.refl l
  | succ fuel ih =>
    intro l a m b
    simp only [symMergeAux]
    by_cases h1 : m - a = 1
    · rw [if_pos h1]
      exact bubbleUp_perm _ _ _ _
    · rw [if_neg h1]
      by_cases h2 : b - m = 1
      · rw [if_pos h2]
        exact bubbleDown_perm _ _ _ _
      · rw [if_neg h2]
        refine (perm_ite _ (fun x => symMergeAux less x _ _ _ fuel)
            (fun x => ih x _ _ _) _).trans ?_
        refine (perm_ite _ (fun x => symMergeAux less x _ _ _ fuel)
            (fun x => ih x _ _ _) _).trans ?_
        exact perm_ite _ (fun x => rotateGo x _ _ _) (fun x => rotateGo_perm x _ _ _) _

theorem symMergeGo_perm (less : α → α → Bool) (l : List α) (a m b : Nat) :
    List.Perm (symMergeGo less l a m b) l :=
  symMergeAux_perm less _ l a m b

theorem insertionSortRange_perm (less : α → α → Bool) (l : List α) (a b : Nat)
    (hab : a ≤ b) : List.Perm (insertionSortRange less l a b) l := by
  unfold insertionSortRange
  rw [List.append_assoc]
  have hmid := insertionSortGo_perm less ((l.take b).drop a)
  have hch : List.Perm (l.take a ++ (insertionSortGo less ((l.take b).drop a) ++ l.drop b))
      (l.take a ++ ((l.take b).drop a ++ l.drop b)) :=
    List.Perm.append_left (l.take a) (hmid.append_right (l.drop b))
  have hsplit : l.take a ++ ((l.take b).drop a ++ l.drop b) = l := by
    rw [← List.append_assoc]
    have h1 : l.take a ++ (l.take b).drop a = l.take b := by
      have h2 : (l.take b).take a = l.take a := by
        rw [List.take_take, Nat.min_eq_left hab]
      rw [← h2, List.take_append_drop]
    rw [h1, List.take_append_drop]
  have hlast : List.Perm (l.take a ++ ((l.take b).drop a ++ l.drop b)) l := by
    rw [hsplit]
  exact hch.trans hlast

theorem insBlocks_stop (less : α → α → Bool) (l : List α) (a b n fuel : Nat)
    (h : ¬ b ≤ n) : insBlocks less l a b n fuel = (l, a) := by
  cases fuel <;> simp [insBlocks, h]

theorem insBlocks_step (less : α → α → Bool) (l : List α) (a b n fuel : Nat)
    (h : b ≤ n) : insBlocks less l a b n (fuel + 1)
      = insBlocks less (insertionSortRange less l a b) b (b + 20) n fuel := by
  simp [insBlocks, h]

theorem insBlocks_spec (less : α → α → Bool) (n : Nat) :
    ∀ (fuel : Nat) (l : List α) (a b : Nat), a ≤ n → a ≤ b →
    List.Perm (insBlocks less l a b n fuel).1 l ∧ (insBlocks less l a b n fuel).2 ≤ n := by
  intro fuel
  induction fuel with
  | zero => intro l a b ha hab; exact ⟨List.Perm.refl l, ha⟩
  | succ fuel ih =>
    intro l a b ha hab
    by_cases hb : b ≤ n
    · rw [insBlocks_step less l a b n fuel hb]
      have hres := ih (insertionSortRange less l a b) b (b + 20) hb (by omega)
      exact ⟨hres.1.trans (insertionSortRange_perm less l a b hab), hres.2⟩
    · rw [insBlocks_stop less l a b n _ hb]
      exact ⟨List.Perm.refl l, ha⟩

theorem mergeRow_perm (less : α → α → Bool) (blockSize n : Nat) :
    ∀ (fuel : Nat) (l : List α) (a b : Nat),
    List.Perm (mergeRow less l a b blockSize n fuel).1 l := by
  intro fuel
  induction fuel with
  | zero => intro l a b; exact List.Perm.refl l
  | succ fuel ih =>
    intro l a b
    simp only [mergeRow]
    split_ifs with h
    · exact (ih _ _ _).trans (symMergeGo_perm less l a (a + blockSize) b)
    · exact List.Perm.refl l

theorem mergeLoop_stop (less : α → α → Bool) (l : List α) (blockSize n fuel : Nat)
    (h : ¬ blockSize < n) : mergeLoop less l blockSize n fuel = l := by
  cases fuel <;> simp [mergeLoop, h]

theorem mergeLoop_perm (less : α → α → Bool) (n : Nat) :
    ∀ (fuel : Nat) (l : List α) (blockSize : Nat),
    List.Perm (mergeLoop less l blockSize n fuel) l := by
  intro fuel
  induction fuel with
  | zero => intro l bs; exact List.Perm.refl l
  | succ fuel ih =>
    intro l bs
    simp only [mergeLoop]
    by_cases h : bs < n
    · rw [if_pos h]
      set pr := mergeRow less l 0 (2 * bs) bs n (n + 1) with hpr
      refine (ih _ _).trans ?_
      refine (perm_ite (pr.2 + bs < n) (fun x => symMergeGo less x pr.2 (pr.2 + bs) n)
          (fun x => symMergeGo_perm less x pr.2 (pr.2 + bs) n) pr.1).trans ?_
      rw [hpr]
      exact mergeRow_perm less bs n _ l 0 (2 * bs)
    · rw [if_neg h]

theorem sliceStableGo_perm (less : α → α → Bool) (l : List α) :
    List.Perm (sliceStableGo less l) l := by
  unfold sliceStableGo
  have hspec := insBlocks_spec less l.length (l.length + 1) l 0 20
    (Nat.zero_le _) (Nat.zero_le _)
  refine (mergeLoop_perm less l.length _ _ _).trans ?_
  exact (insertionSortRange_perm less _ _ _ hspec.2).trans hspec.1

/-- For slices of length at most 20, `sort.SliceStable` is exactly one
stable insertion-sort pass over the whole slice. -/
theorem sliceStableGo_small (less : α → α → Bool) (l : List α) (h : l.length ≤ 20) :
    sliceStableGo less l = insertionSortGo less l := by
  unfold sliceStableGo
  simp only []
  by_cases h20 : 20 ≤ l.length
  · have hn : l.length = 20 := le_antisymm h h20
    rw [hn]
    rw [insBlocks_step less l 0 20 20 20 (le_refl 20)]
    rw [insBlocks_stop less _ 20 40 20 20 (by omega)]
    have hfull : insertionSortRange less l 0 20 = insertionSortGo less l := by
      unfold insertionSortRange
      rw [← hn, List.take_length]
      simp [List.drop_eq_nil_of_le (le_of_eq hn)]
    rw [hfull]
    have hlen : (insertionSortGo less l).length = 20 := by
      rw [(insertionSortGo_perm less l).length_eq, hn]
    have hid : insertionSortRange less (insertionSortGo less l) 20 20
        = insertionSortGo less l := by
      unfold insertionSortRange
      rw [← hlen, List.take_length]
      have hdrop : (insertionSortGo less l).drop (insertionSortGo less l).length = [] :=
        List.drop_eq_nil_of_le (le_refl _)
      rw [hdrop]
      simp [insertionSortGo]
    rw [hid]
    exact mergeLoop_stop less _ 20 20 _ (by omega)
  · have hlt : l.length < 20 := by omega
    rw [insBlocks_stop less l 0 20 l.length _ (by omega)]
    have hfull : insertionSortRange less l 0 l.length = insertionSortGo less l := by
      unfold insertionSortRange
      rw [List.take_length]
      simp [List.drop_eq_nil_of_le (le_refl l.length)]
    rw [hfull]
    exact mergeLoop_stop less _ 20 l.length _ (by omega)

/-- For arrays of at most 20 elements, `sortArrayByKey` is one stable
insertion-sort pass with the by-key comparator. -/
theorem sortArrayByKey_small (arr : List Value) (key : String) (h : arr.length ≤ 20) :
    sortArrayByKey arr key = insertionSortGo (lessByKey key) arr :=
  sliceStableGo_small (lessByKey key) arr h

theorem chain'_insertRev (less : α → α → Bool)
    (hasym : ∀ a b, less a b = true → less b a = false)
    (x : α) (acc : List α)
    (h : List.Chain' (fun a b => less a b = false) acc) :
    List.Chain' (fun a b => less a b = false) (insertRev less x acc) := by
  induction acc with
  | nil => simp [insertRev]
  | cons y ys ih =>
    simp only [insertRev]
    by_cases hxy : less x y
    · simp only [hxy, if_true]
      have hys := h.tail
      have hins := ih hys
      cases ys with
      | nil =>
        simp only [insertRev]
        exact List.chain'_cons.mpr ⟨hasym x y hxy, List.chain'_singleton x⟩
      | cons z zs =>
        simp only [insertRev] at hins ⊢
        by_cases hxz : less x z
        · simp only [hxz, if_true] at hins ⊢
          exact List.chain'_cons.mpr ⟨(List.chain'_cons.mp h).1, hins⟩
        · simp only [hxz, if_false] at hins ⊢
          exact List.chain'_cons.mpr ⟨hasym x y hxy, hins⟩
    · simp only [hxy, if_false]
      have hxyf : less x y = false := by
        cases hval : less x y with
        | false => rfl
        | true => exact absurd hval hxy
      exact List.chain'_cons.mpr ⟨hxyf, h⟩

theorem foldl_insertRev_chain' (less : α → α → Bool)
    (hasym : ∀ a b, less a b = true → less b a = false)
    (l acc : List α)
    (h : List.Chain' (fun a b => less a b = false) acc) :
    List.Chain' (fun a b => less a b = false)
      (l.foldl (fun acc x => insertRev less x acc) acc) := by
  induction l generalizing acc with
  | nil => exact h
  | cons x xs ih =>
    simp only [List.foldl_cons]
    exact ih _ (chain'_insertRev less hasym x acc h)

/-- The output of the stable insertion sort has every adjacent pair in weak
order: the later element is never `less` than the earlier one. -/
theorem insertionSortGo_chain' (less : α → α → Bool)
    (hasym : ∀ a b, less a b = true → less b a = false)
    (l : List α) :
    List.Chain' (fun a b => less b a = false) (insertionSortGo less l) := by
  unfold insertionSortGo
  rw [List.chain'_reverse]
  exact foldl_insertRev_chain' less hasym l [] (by simp)

theorem foldl_insertRev_fixed (less : α → α → Bool)
    (l acc : List α)
    (h : List.Chain' (fun a b => less b a = false) (acc.reverse ++ l)) :
    l.foldl (fun acc x => insertRev less x acc) acc = l.reverse ++ acc := by
  induction l generalizing acc with
  | nil => simp
  | cons x xs ih =>
    have hstep : insertRev less x acc = x :: acc := by
      cases acc with
      | nil => rfl
      | cons y ys =>
        have hrel := (List.chain'_append.mp h).2.2 y
          (by simp) x (by simp)
        simp [insertRev, hrel]
    rw [List.foldl_cons, hstep]
    have h' : List.Chain' (fun a b => less b a = false) ((x :: acc).reverse ++ xs) := by
      simpa using h
    rw [ih (x :: acc) h']
    simp

/-- A list whose adjacent pairs are already in weak order is a fixed point
of the stable insertion sort. -/
theorem insertionSortGo_fixed (less : α → α → Bool) (l : List α)
    (h : List.Chain' (fun a b => less b a = false) l) :
    insertionSortGo less l = l := by
  unfold insertionSortGo
  rw [foldl_insertRev_fixed less l [] (by simpa using h)]
  simp

theorem insertionSortGo_idem (less : α → α → Bool)
    (hasym : ∀ a b, less a b = true → less b a = false)
    (l : List α) :
    insertionSortGo less (insertionSortGo less l) = insertionSortGo less l :=
  insertionSortGo_fixed less _ (insertionSortGo_chain' less hasym l)

theorem insertRev_append_barrier (less : α → α → Bool) (b : α)
    (hb : ∀ x, less x b = false)
    (x : α) (ys zs : List α) :
    insertRev less x (ys ++ b :: zs) = insertRev less x ys ++ b :: zs := by
  induction ys with
  | nil => simp [insertRev, hb x]
  | cons y ys' ih =>
    simp only [List.cons_append, insertRev]
    by_cases h : less x y <;> simp [h, ih]

theorem foldl_insertRev_barrier (less : α → α → Bool) (b : α)
    (hb : ∀ x, less x b = false)
    (l acc tail : List α) :
    l.foldl (fun acc x => insertRev less x acc) (acc ++ b :: tail)
      = (l.foldl (fun acc x => insertRev less x acc) acc) ++ b :: tail := by
  induction l generalizing acc with
  | nil => rfl
  | cons x xs ih =>
    simp only [List.foldl_cons]
    rw [insertRev_append_barrier less b hb x acc tail, ih]

/-- An element that compares "no preference" against everything acts as a
barrier: the stable sort factors through it, sorting the two sides
independently and leaving the barrier in place. -/
theorem insertionSortGo_barrier (less : α → α → Bool) (b : α)
    (hb : ∀ x, less x b = false) (hb2 : ∀ x, less b x = false)
    (l₁ l₂ : List α) :
    insertionSortGo less (l₁ ++ b :: l₂)
      = insertionSortGo less l₁ ++ b :: insertionSortGo less l₂ := by
  unfold insertionSortGo
  rw [List.foldl_append]
  have hstep : ∀ acc : List α,
      (b :: l₂).foldl (fun acc x => insertRev less x acc) acc
        = l₂.foldl (fun acc x => insertRev less x acc) ([] ++ b :: acc) := by
    intro acc
    simp only [List.foldl_cons, List.nil_append]
    congr 1
    cases acc with
    | nil => rfl
    | cons y ys => simp [insertRev, hb2 y]
  rw [hstep, foldl_insertRev_barrier less b hb]
  simp

/-! ### Sign antisymmetry of the sort comparator -/

theorem stringsCompare_swap (a b : String) : stringsCompare a b = -(stringsCompare b a) := by
  unfold stringsCompare
  rcases lt_trichotomy a b with h | h | h
  · simp [h, asymm h]
  · simp [h, lt_irrefl]
  · simp [h, asymm h]

theorem compareValuesOrd_swap (a b : Value) :
    compareValuesOrd a b = -(compareValuesOrd b a) := by
  unfold compareValuesOrd
  by_cases hto : typeOrder a = typeOrder b
  · simp only [hto, ne_eq, not_true_eq_false, if_false, lt_irrefl]
    cases a <;> cases b <;> simp_all [typeOrder]
    · rename_i av bv
      cases av <;> cases bv <;> simp
    · rename_i av bv
      rcases lt_trichotomy av bv with h | h | h
      · simp [h, asymm h, not_lt_of_lt h]
      · simp [h, lt_irrefl]
      · simp [h, asymm h, not_lt_of_lt h]
    · rename_i av bv
      exact stringsCompare_swap av bv
  · have hto' : typeOrder b ≠ typeOrder a := fun hh => hto hh.symm
    simp only [ne_eq, hto, hto', not_false_eq_true, if_true]
    omega

theorem lessOrd_asym : ∀ a b : Value, lessOrd a b = true → lessOrd b a = false := by
  intro a b h
  unfold lessOrd at *
  simp only [decide_eq_true_eq] at h
  simp only [decide_eq_false_iff_not, not_lt]
  rw [compareValuesOrd_swap] at h
  omega

theorem lessByKey_asym (key : String) :
    ∀ a b : Value, lessByKey key a b = true → lessByKey key b a = false := by
  intro a b h
  unfold lessByKey at *
  cases a <;> cases b <;> simp_all
  case obj.obj ma mb =>
    cases hma : listLookup key ma <;> cases hmb : listLookup key mb <;>
      simp_all
    case some.some iv jv =>
      rw [compareValuesOrd_swap] at h
      omega

/-! ### Normalizer: pointwise facts -/

/-- `normalizeNumber` never changes the numeric value: when the integrality
test succeeds, the returned truncation equals the input by that very test. -/
theorem normalizeNumber_self (n : ℚ) (opts : Options) : normalizeNumber n opts = n := by
  unfold normalizeNumber
  split_ifs with h1 h2
  · exact h2.symm
  · rfl
  · rfl

theorem dropWhile_idem (p : α → Bool) (l : List α) :
    List.dropWhile p (List.dropWhile p l) = List.dropWhile p l := by
  cases h : List.dropWhile p l with
  | nil => rfl
  | cons x xs =>
    have hh := List.head?_dropWhile_not p l
    rw [h] at hh
    simp only [List.head?_cons] at hh
    simp [List.dropWhile_cons, hh]

theorem dropWhile_eq_self_of_head (p : α → Bool) (l : List α)
    (h : ∀ x ∈ l.head?, p x = false) : List.dropWhile p l = l := by
  cases l with
  | nil => rfl
  | cons x xs =>
    have := h x (by simp)
    simp [List.dropWhile_cons, this]

theorem trimSpace_idem (s : String) : trimSpace (trimSpace s) = trimSpace s := by
  unfold trimSpace
  congr 1
  set p := isSpaceGo with hp
  set u := s.data.dropWhile p with hu
  set Y := u.reverse.dropWhile p with hY
  show ((Y.reverse.dropWhile p).reverse.dropWhile p).reverse = Y.reverse
  have hA : Y.reverse.dropWhile p = Y.reverse := by
    apply dropWhile_eq_self_of_head
    intro x hx
    rw [List.head?_reverse] at hx
    cases hYnil : Y with
    | nil => rw [hYnil] at hx; simp at hx
    | cons z zs =>
      obtain ⟨tpre, htpre⟩ := List.dropWhile_suffix (l := u.reverse) p
      rw [← hY] at htpre
      have hlast : Y.getLast? = u.reverse.getLast? := by
        rw [← htpre, List.getLast?_append, hYnil]
        cases hzz : (z :: zs).getLast? with
        | none =>
          rw [List.getLast?_eq_none_iff] at hzz
          simp at hzz
        | some w => rfl
      rw [hlast, List.getLast?_reverse] at hx
      have hhead := List.head?_dropWhile_not p s.data
      rw [← hu] at hhead
      cases hu2 : u.head? with
      | none => rw [hu2] at hx; simp at hx
      | some w =>
        rw [hu2] at hhead hx
        simp at hx
        subst hx
        exact hhead
  rw [hA]
  have hB : Y.reverse.reverse.dropWhile p = Y := by
    rw [List.reverse_reverse, hY]
    exact dropWhile_idem p u.reverse
  rw [hB]

theorem normalizeString_idem (s : String) (opts : Options) :
    normalizeString (normalizeString s opts) opts = normalizeString s opts := by
  unfold normalizeString
  split_ifs with h
  · exact trimSpace_idem s
  · rfl

theorem normalizeList_eq_map (l : List Value) (opts : Options) :
    normalizeList l opts = l.map (fun x => normalizeValue x opts) := by
  induction l with
  | nil => rfl
  | cons x xs ih => simp [normalizeList, ih]

/-- Normalization maps each constructor to itself; in particular a value is
null after normalization exactly when it was null before. -/
theorem normalizeValue_null_iff (v : Value) (opts : Options) :
    normalizeValue v opts = .null ↔ v = .null := by
  cases v <;> simp [normalizeValue]

theorem sortIfRequested_perm (l : List Value) (opts : Options) :
    List.Perm (sortIfRequested l opts) l := by
  unfold sortIfRequested
  split_ifs with h1 h2
  · exact sliceStableGo_perm _ l
  · exact sliceStableGo_perm _ l
  · exact List.Perm.refl l

theorem normalizeEntries_idem (opts : Options) (m : List (String × Value))
    (ih : ∀ kv ∈ m, normalizeValue (normalizeValue kv.2 opts) opts = normalizeValue kv.2 opts) :
    normalizeEntries (normalizeEntries m opts) opts = normalizeEntries m opts := by
  induction m with
  | nil => rfl
  | cons kv rest ihr =>
    obtain ⟨k, v⟩ := kv
    by_cases h : opts.nullEqualsAbsent ∧ v = Value.null
    · simp only [normalizeEntries, if_pos h]
      exact ihr (fun kv hkv => ih kv (List.mem_cons_of_mem _ hkv))
    · simp only [normalizeEntries, if_neg h]
      have hcond : ¬ (opts.nullEqualsAbsent ∧ normalizeValue v opts = Value.null) := by
        rintro ⟨h1, h2⟩
        exact h ⟨h1, (normalizeValue_null_iff v opts).mp h2⟩
      simp only [normalizeEntries, if_neg hcond]
      rw [ih (k, v) (by simp)]
      rw [ihr (fun kv hkv => ih kv (List.mem_cons_of_mem _ hkv))]

theorem mem_sortIfRequested {x : Value} {l : List Value} {opts : Options}
    (h : x ∈ sortIfRequested l opts) : x ∈ l :=
  (sortIfRequested_perm l opts).subset h

/-! ### The normalizer does not read SortKeys -/

theorem normalizeValue_ignores_sortKeys : ∀ (v : Value) (o : Options) (b : Bool),
    normalizeValue v { o with sortKeys := b } = normalizeValue v o := by
  intro v
  induction v using Value.recMem with
  | h0 => intro o b; rfl
  | h1 x => intro o b; rfl
  | h2 q => intro o b; simp [normalizeValue, normalizeNumber, mathTrunc]
  | h3 s => intro o b; simp [normalizeValue, normalizeString]
  | h4 l ih =>
    intro o b
    simp only [normalizeValue]
    congr 1
    have hlist : normalizeList l { o with sortKeys := b } = normalizeList l o := by
      rw [normalizeList_eq_map, normalizeList_eq_map]
      exact List.map_congr_left (fun x hx => ih x hx o b)
    rw [hlist]
    simp [sortIfRequested]
  | h5 m ih =>
    intro o b
    simp only [normalizeValue]
    congr 1
    induction m with
    | nil => rfl
    | cons kv rest ihr =>
      obtain ⟨k, v⟩ := kv
      simp only [normalizeEntries]
      by_cases h : o.nullEqualsAbsent ∧ v = Value.null
      · have h' : ({ o with sortKeys := b } : Options).nullEqualsAbsent ∧ v = Value.null := h
        rw [if_pos h', if_pos h]
        exact ihr (fun kv hkv => ih kv (List.mem_cons_of_mem _ hkv))
      · have h' : ¬ (({ o with sortKeys := b } : Options).nullEqualsAbsent ∧ v = Value.null) := h
        rw [if_neg h', if_neg h]
        rw [ih (k, v) (by simp) o b]
        rw [ihr (fun kv hkv => ih kv (List.mem_cons_of_mem _ hkv))]

/-! ### Claim theorems -/

/-- C1 is refuted: normalization is NOT idempotent.  With only
`SortArraysByKey := "k"` set, normalizing the 21-element array
`c1FailingArray` twice differs from normalizing it once: with more than 20
elements `sort.SliceStable` runs its `symMerge` phase, whose binary
searches presume a transitive comparator, while `lessByKey` ties every
pair involving a keyless element — so the first sort is not a fixed point
of the second, and the keyed objects move again on the second pass. -/
theorem c1_normalize_not_idempotent :
    normalizeValue (normalizeValue (Value.arr c1FailingArray) c1FailingOptions)
        c1FailingOptions
      ≠ normalizeValue (Value.arr c1FailingArray) c1FailingOptions := by
  decide

/-- C10: `normalizeNumber` is the identity on the decoded numeric value, for
every number and every options record (with or without `NormalizeNumbers`);
when the integrality test `n == math.Trunc(n)` succeeds the returned
truncation is the very same value, so normalization never changes a
number. -/
theorem c10_normalizeNumber_identity (n : ℚ) (opts : Options) :
    normalizeNumber n opts = n ∧ (n = mathTrunc n → mathTrunc n = n) :=
  ⟨normalizeNumber_self n opts, fun h => h.symm⟩

/-- C8: the `SortKeys` option does not change the computed normalized
value — normalization with `SortKeys := true` and with `SortKeys := false`
produce identical values (the option only affects comparison semantics). -/
theorem c8_sortKeys_no_effect (v : Value) (o : Options) :
    normalizeValue v { o with sortKeys := true }
      = normalizeValue v { o with sortKeys := false } :=
  (normalizeValue_ignores_sortKeys v o true).trans
    (normalizeValue_ignores_sortKeys v o false).symm

/-- C5: when exactly one side is null, `Compare` produces a single childless
node — `Added` carrying only the right value when the left side is null,
`Removed` carrying only the left value when the right side is null; in
particular `compare(null, "x")` and `compare("x", null)`. -/
theorem c5_one_side_null :
    (∀ (v : Value) (p : String), v ≠ Value.null →
      compareValuesDiff .null v p = .mk p .added none (some v) [] ∧
      compareValuesDiff v .null p = .mk p .removed (some v) none []) ∧
    compareValuesDiff .null (.str "x") "" = .mk "" .added none (some (.str "x")) [] ∧
    compareValuesDiff (.str "x") .null "" = .mk "" .removed (some (.str "x")) none [] := by
  have hmain : ∀ (v : Value) (p : String), v ≠ Value.null →
      compareValuesDiff .null v p = .mk p .added none (some v) [] ∧
      compareValuesDiff v .null p = .mk p .removed (some v) none [] := by
    intro v p hv
    constructor
    · rw [compareValuesDiff]
      rw [if_neg (fun hand => hv hand.2), if_pos rfl]
      all_goals (intro lm rm h1 h2; exact absurd h1 (by simp))
    · rw [compareValuesDiff]
      rw [if_neg (fun hand => hv hand.1), if_neg hv, if_pos rfl]
      all_goals (intro lm rm h1 h2; exact absurd h2 (by simp))
  exact ⟨hmain, (hmain (.str "x") "" (by simp)).1, (hmain (.str "x") "" (by simp)).2⟩

theorem c5_one_side_null_witness :
    compareValuesDiff (.bool true) .null "q" = .mk "q" .removed (some (.bool true)) none [] :=
  (c5_one_side_null.1 (.bool true) "q" (by simp)).2

/-- C9: comparing an empty object (resp. empty array) against an equal
empty container yields a single childless Equal node, counted exactly once
by the stats reducer. -/
theorem c9_empty_containers :
    compareValuesDiff (.obj []) (.obj []) "" = .mk "" .equal none none [] ∧
    compareValuesDiff (.arr []) (.arr []) "" = .mk "" .equal none none [] ∧
    (Compare (.obj []) (.obj [])).stats = ⟨0, 0, 0, 1⟩ ∧
    (Compare (.arr []) (.arr [])).stats = ⟨0, 0, 0, 1⟩ := by
  have h1 : compareValuesDiff (.obj []) (.obj []) "" = .mk "" .equal none none [] := by
    rw [compareValuesDiff]
    simp [sortedUnionKeys, insertionSortGo, aggKind]
  have h2 : compareValuesDiff (.arr []) (.arr []) "" = .mk "" .equal none none [] := by
    rw [compareValuesDiff]
    simp [aggKind]
  refine ⟨h1, h2, ?_, ?_⟩
  · unfold Compare
    rw [h1]
    simp [calculateStats, walkAndCount, walkList, bumpStats]
  · unfold Compare
    rw [h2]
    simp [calculateStats, walkAndCount, walkList, bumpStats]

theorem normalizeEntries_filterMap (o : Options) (m : List (String × Value))
    (h : o.nullEqualsAbsent = true) :
    normalizeEntries m o = m.filterMap fun kv =>
      if kv.2 = Value.null then none else some (kv.1, normalizeValue kv.2 o) := by
  induction m with
  | nil => rfl
  | cons kv rest ih =>
    obtain ⟨k, v⟩ := kv
    by_cases hv : v = Value.null
    · simp [normalizeEntries, hv, h, List.filterMap_cons, ih]
    · simp [normalizeEntries, hv, h, List.filterMap_cons, ih]

/-- C3: with NullEqualsAbsent enabled, normalization removes from every
object exactly the entries whose value is null (keeping the rest, values
normalized recursively), never removes a null from an array (length and
null-count are preserved), and consequently
compareNormalized({"a":1,"b":null}, {"a":1}) has root kind Equal. -/
theorem c3_null_equals_absent :
    (∀ (o : Options) (m : List (String × Value)), o.nullEqualsAbsent = true →
      normalizeValue (.obj m) o = .obj (m.filterMap fun kv =>
        if kv.2 = Value.null then none else some (kv.1, normalizeValue kv.2 o))) ∧
    (∀ (o : Options) (l : List Value),
      ∃ l', normalizeValue (.arr l) o = .arr l' ∧ l'.length = l.length ∧
        l'.countP (fun x => x = Value.null) = l.countP (fun x => x = Value.null)) ∧
    (CompareWithOptions (.obj [("a", .num 1), ("b", .null)]) (.obj [("a", .num 1)])
      { defaultOptions with nullEqualsAbsent := true }).root.type = .equal := by
  refine ⟨?_, ?_, ?_⟩
  · intro o m h
    simp only [normalizeValue]
    rw [normalizeEntries_filterMap o m h]
  · intro o l
    refine ⟨sortIfRequested (normalizeList l o) o, rfl, ?_, ?_⟩
    · rw [(sortIfRequested_perm _ o).length_eq, normalizeList_eq_map, List.length_map]
    · rw [(sortIfRequested_perm _ o).countP_eq, normalizeList_eq_map, List.countP_map]
      apply List.countP_congr
      intro x hx
      simp [Function.comp, normalizeValue_null_iff]
  · unfold CompareWithOptions
    have hn1 : normalizeValue (.obj [("a", .num 1), ("b", .null)])
        { defaultOptions with nullEqualsAbsent := true }
        = .obj [("a", .num 1)] := by
      simp [normalizeValue, normalizeEntries, normalizeNumber, mathTrunc, defaultOptions]
    have hn2 : normalizeValue (.obj [("a", .num 1)])
        { defaultOptions with nullEqualsAbsent := true }
        = .obj [("a", .num 1)] := by
      simp [normalizeValue, normalizeEntries, normalizeNumber, mathTrunc, defaultOptions]
    rw [hn1, hn2]
    have hc : compareValuesDiff (.obj [("a", .num 1)]) (.obj [("a", .num 1)]) "" =
        .mk "" .equal none none [.mk ".a" .equal none none []] := by
      rw [compareValuesDiff]
      simp [sortedUnionKeys, insertionSortGo, insertRev, listLookup, List.dedup, aggKind]
      rw [compareValuesDiff]
      simp [typeOrder, deepEqual]
      all_goals (intro a b h hh; simp at h)
    simp only [hc, DiffNode.type_mk]

theorem c3_null_equals_absent_witness :
    normalizeValue (.obj [("k", Value.null), ("a", .bool true)])
        { noNormalization with nullEqualsAbsent := true }
      = .obj [("a", .bool true)] := by
  have := c3_null_equals_absent.1 { noNormalization with nullEqualsAbsent := true }
    [("k", Value.null), ("a", .bool true)] rfl
  simpa [normalizeValue] using this

/-- Whether a value is an object carrying the key (the condition the
`sortArrayByKey` comparator tests before comparing). -/
def hasKeyObj (key : String) (v : Value) : Bool :=
  match v with
  | .obj m => (listLookup key m).isSome
  | _ => false

theorem lessByKey_false_right (key : String) (b : Value)
    (hb : hasKeyObj key b = false) : ∀ x, lessByKey key x b = false := by
  intro x
  cases b <;> cases x <;> simp_all [lessByKey, hasKeyObj]

theorem lessByKey_false_left (key : String) (b : Value)
    (hb : hasKeyObj key b = false) : ∀ x, lessByKey key b x = false := by
  intro x
  cases b <;> cases x <;> simp_all [lessByKey, hasKeyObj]

/-- C2 counterexample: with key "k", the array
`[{"k":2}, null, {"k":1}]` is left completely unchanged by
`sortArrayByKey` (the null ties with both neighbours and, at this length,
the stable insertion sort never moves anything across it), even though the
comparator orders the `{"k":1}` object strictly before the `{"k":2}`
object — so the elements that do have the key do **not** end up ordered by
the value under the key.  Beyond 20 elements even that barrier behaviour
is gone: on nineteen `{"k":5}` objects followed by `null, {"k":1}`, the
`symMerge` phase carries `{"k":1}` all the way across the null to the
front. -/
theorem c2_counterexample :
    sortArrayByKey
        [Value.obj [("k", .num 2)], Value.null, Value.obj [("k", .num 1)]] "k"
      = [Value.obj [("k", .num 2)], Value.null, Value.obj [("k", .num 1)]] ∧
    lessByKey "k" (Value.obj [("k", .num 1)]) (Value.obj [("k", .num 2)]) = true ∧
    sortArrayByKey
        (List.replicate 19 (Value.obj [("k", .num 5)])
          ++ [Value.null, Value.obj [("k", .num 1)]]) "k"
      = Value.obj [("k", .num 1)]
          :: (List.replicate 19 (Value.obj [("k", .num 5)]) ++ [Value.null]) := by
  refine ⟨by decide, by decide, by decide⟩

/-- C2 (amended): `sortArrayByKey` stable-sorts with `sort.SliceStable` by a
comparator that reports no preference for any pair involving a non-object
or key-missing element.  The result is always a permutation of the input.
For arrays of at most 20 elements (one insertion-sort block), keyless
elements additionally act as barriers: no element is moved across them,
they keep their exact positions, the keyed segments between them are
sorted independently, and consecutive elements end up in non-decreasing
key order — keyed elements are ordered by the key only within segments
uninterrupted by keyless elements.  Above 20 elements the `symMerge`
phase gives no such positional guarantee (see `c2_counterexample`). -/
theorem c2_sortByKey_amended :
    (∀ (o : Options) (l : List Value), o.sortArraysByKey ≠ "" →
      normalizeValue (.arr l) o
        = .arr (sortArrayByKey (normalizeList l o) o.sortArraysByKey)) ∧
    (∀ (key : String) (l : List Value), List.Perm (sortArrayByKey l key) l) ∧
    (∀ (key : String) (l₁ l₂ : List Value) (b : Value), hasKeyObj key b = false →
      (l₁ ++ b :: l₂).length ≤ 20 →
      sortArrayByKey (l₁ ++ b :: l₂) key
        = sortArrayByKey l₁ key ++ b :: sortArrayByKey l₂ key) ∧
    (∀ (key : String) (l : List Value), l.length ≤ 20 →
      List.Chain' (fun a b => lessByKey key b a = false) (sortArrayByKey l key)) := by
  refine ⟨?_, ?_, ?_, ?_⟩
  · intro o l h
    simp [normalizeValue, sortIfRequested, h]
  · intro key l
    exact sliceStableGo_perm _ l
  · intro key l₁ l₂ b hb hlen
    have h1 : l₁.length ≤ 20 := by
      rw [List.length_append, List.length_cons] at hlen
      omega
    have h2 : l₂.length ≤ 20 := by
      rw [List.length_append, List.length_cons] at hlen
      omega
    rw [sortArrayByKey_small _ _ hlen, sortArrayByKey_small _ _ h1,
      sortArrayByKey_small _ _ h2]
    exact insertionSortGo_barrier _ b (lessByKey_false_right key b hb)
      (lessByKey_false_left key b hb) l₁ l₂
  · intro key l hlen
    rw [sortArrayByKey_small _ _ hlen]
    exact insertionSortGo_chain' _ (lessByKey_asym key) l

theorem c2_sortByKey_amended_witness :
    hasKeyObj "k" (Value.str "s") = false ∧
    sortArrayByKey
        [Value.obj [("k", .num 3)], Value.str "s", Value.obj [("k", .num 1)],
         Value.obj [("k", .num 2)]] "k"
      = sortArrayByKey [Value.obj [("k", .num 3)]] "k" ++ Value.str "s" ::
          sortArrayByKey [Value.obj [("k", .num 1)], Value.obj [("k", .num 2)]] "k" ∧
    ({ sortKeys := false, normalizeNumbers := false, trimStrings := false,
       nullEqualsAbsent := false, sortArrays := false,
       sortArraysByKey := "k" } : Options).sortArraysByKey ≠ "" ∧
    normalizeValue (.arr [Value.obj [("k", .num 2)], Value.obj [("k", .num 1)]])
        { sortKeys := false, normalizeNumbers := false, trimStrings := false,
          nullEqualsAbsent := false, sortArrays := false, sortArraysByKey := "k" }
      = .arr [Value.obj [("k", .num 1)], Value.obj [("k", .num 2)]] ∧
    List.Chain' (fun a b => lessByKey "k" b a = false)
      (sortArrayByKey
        [Value.obj [("k", .num 2)], Value.null, Value.obj [("k", .num 1)]] "k") := by
  refine ⟨rfl, ?_, ?_, ?_, ?_⟩
  · exact c2_sortByKey_amended.2.2.1 "k"
      [Value.obj [("k", .num 3)]]
      [Value.obj [("k", .num 1)], Value.obj [("k", .num 2)]]
      (Value.str "s") rfl (by decide)
  · decide
  · rw [c2_sortByKey_amended.1 _ _ (by decide)]
    rfl
  · exact c2_sortByKey_amended.2.2.2 "k"
      [Value.obj [("k", .num 2)], Value.null, Value.obj [("k", .num 1)]] (by decide)

theorem mem_sortedUnionKeys (lm rm : List (String × Value)) (k : String) :
    k ∈ sortedUnionKeys lm rm ↔ (k ∈ lm.map Prod.fst ∨ k ∈ rm.map Prod.fst) := by
  unfold sortedUnionKeys
  rw [(insertionSortGo_perm _ _).mem_iff, List.mem_dedup, List.mem_append]

theorem nodup_sortedUnionKeys (lm rm : List (String × Value)) :
    (sortedUnionKeys lm rm).Nodup := by
  unfold sortedUnionKeys
  exact (insertionSortGo_perm _ _).nodup_iff.mpr (List.nodup_dedup _)

theorem pairwise_lt_sortedUnionKeys (lm rm : List (String × Value)) :
    (sortedUnionKeys lm rm).Pairwise (· < ·) := by
  have hchain := insertionSortGo_chain' (fun a b : String => decide (a < b))
    (fun a b h => by
      simp only [decide_eq_true_eq] at h
      simp only [decide_eq_false_iff_not]
      exact asymm h)
    ((lm.map Prod.fst ++ rm.map Prod.fst).dedup)
  have hle : List.Chain' (· ≤ ·) (sortedUnionKeys lm rm) := by
    refine hchain.imp ?_
    intro a b h
    simp only [decide_eq_false_iff_not] at h
    exact le_of_not_lt h
  have : IsTrans String (· ≤ ·) := ⟨fun a b c => le_trans⟩
  have hpw : (sortedUnionKeys lm rm).Pairwise (· ≤ ·) :=
    List.chain'_iff_pairwise.mp hle
  have hne := nodup_sortedUnionKeys lm rm
  exact (hpw.and hne).imp (fun h => lt_of_le_of_ne h.1 h.2)

/-- C4: for two objects, the diff node has exactly one child per key in the
union of the key sets, the children appear in strictly increasing
lexicographic key order independent of input order, and each child is:
Added with only the right value when the key is absent on the left,
Removed with only the left value when absent on the right, and the
recursive comparison at path `parent ++ "." ++ key` otherwise. -/
theorem c4_object_comparison (lm rm : List (String × Value)) (p : String) :
    ∃ ks : List String,
      (∀ k, k ∈ ks ↔ (k ∈ lm.map Prod.fst ∨ k ∈ rm.map Prod.fst)) ∧
      ks.Pairwise (· < ·) ∧
      (compareValuesDiff (.obj lm) (.obj rm) p).children = ks.map fun k =>
        if listLookup k lm = none then
          .mk (p ++ "." ++ k) .added none (listLookup k rm) []
        else if listLookup k rm = none then
          .mk (p ++ "." ++ k) .removed (listLookup k lm) none []
        else
          compareValuesDiff ((listLookup k lm).getD .null)
            ((listLookup k rm).getD .null) (p ++ "." ++ k) := by
  refine ⟨sortedUnionKeys lm rm, mem_sortedUnionKeys lm rm,
    pairwise_lt_sortedUnionKeys lm rm, ?_⟩
  rw [compareValuesDiff]
  simp only [if_neg (by simp : ¬ (Value.obj lm = Value.null ∧ Value.obj rm = Value.null)),
    if_neg (by simp : ¬ (Value.obj lm = Value.null)),
    if_neg (by simp : ¬ (Value.obj rm = Value.null)), DiffNode.children_mk]
  apply List.map_congr_left
  intro k hk
  cases h1 : listLookup k lm with
  | none => simp [h1]
  | some lv =>
    cases h2 : listLookup k rm with
    | none => simp [h1, h2]
    | some rv => simp [h1, h2]

/-- A predicate holding at every node of a diff tree. -/
def allNodes (P : DiffNode → Prop) (n : DiffNode) : Prop :=
  P n ∧ ∀ c ∈ n.children, allNodes P c
termination_by sizeOf n
decreasing_by
  rename_i hcmem
  cases n with
  | mk p t l r ch =>
    rw [DiffNode.children_mk] at hcmem
    have := List.sizeOf_lt_of_mem hcmem
    simp only [DiffNode.mk.sizeOf_spec]
    omega

theorem allNodes_mk (P : DiffNode → Prop) (p t l r ch) :
    allNodes P (.mk p t l r ch) ↔ P (.mk p t l r ch) ∧ ∀ c ∈ ch, allNodes P c := by
  rw [allNodes]
  simp

/-- The per-node aggregation invariant of C6. -/
def kindInv (n : DiffNode) : Prop :=
  n.children ≠ [] →
    ((n.type = .equal ↔ ∀ c ∈ n.children, c.type = .equal) ∧
     (n.type = .equal ∨ n.type = .changed))

theorem kindInv_leaf (p t l r) : kindInv (.mk p t l r []) := by
  intro h
  simp at h

theorem kindInv_agg (p l r ch) : kindInv (.mk p (aggKind ch) l r ch) := by
  intro hne
  unfold aggKind
  by_cases h : ch.all (fun c => c.type = DiffType.equal)
  · rw [if_pos h]
    simp only [List.all_eq_true, decide_eq_true_eq] at h
    exact ⟨⟨fun _ => by simpa using h, fun _ => rfl⟩, Or.inl rfl⟩
  · rw [if_neg h]
    simp only [List.all_eq_true, decide_eq_true_eq] at h
    constructor
    · constructor
      · intro hcontra
        exact absurd hcontra (by simp)
      · intro hall
        exact absurd (by simpa using hall) h
    · exact Or.inr rfl

theorem allNodes_kindInv_leafnode (p t lv rv) :
    allNodes kindInv (.mk p t lv rv []) :=
  (allNodes_mk _ _ _ _ _ _).mpr ⟨kindInv_leaf p t lv rv, by simp⟩

theorem allNodes_kindInv_cvd : ∀ (n : Nat) (l r : Value) (p : String),
    sizeOf l + sizeOf r ≤ n → allNodes kindInv (compareValuesDiff l r p) := by
  intro n
  induction n using Nat.strong_induction_on with
  | _ n ih =>
    intro l r p hle
    rw [compareValuesDiff.eq_def]
    by_cases h1 : l = Value.null ∧ r = Value.null
    · rw [if_pos h1]
      exact allNodes_kindInv_leafnode _ _ _ _
    · rw [if_neg h1]
      by_cases h2 : l = Value.null
      · rw [if_pos h2]
        exact allNodes_kindInv_leafnode _ _ _ _
      · rw [if_neg h2]
        by_cases h3 : r = Value.null
        · rw [if_pos h3]
          exact allNodes_kindInv_leafnode _ _ _ _
        · rw [if_neg h3]
          cases l with
          | obj lm =>
            cases r with
            | obj rm =>
              simp only []
              rw [allNodes_mk]
              refine ⟨kindInv_agg _ _ _ _, ?_⟩
              intro c hc
              obtain ⟨k, hk, hck⟩ := List.mem_map.mp hc
              subst hck
              cases hl : listLookup k lm with
              | none =>
                simp only [hl]
                try simp
                exact allNodes_kindInv_leafnode _ _ _ _
              | some lv =>
                cases hr : listLookup k rm with
                | none =>
                  simp only [hl, hr]
                  try simp
                  exact allNodes_kindInv_leafnode _ _ _ _
                | some rv =>
                  simp only [hl, hr]
                  try simp
                  have hlv := List.sizeOf_lt_of_mem (listLookup_mem hl)
                  have hrv := List.sizeOf_lt_of_mem (listLookup_mem hr)
                  have hlv2 : sizeOf lv < sizeOf (Value.obj lm) := by
                    have : sizeOf lv < sizeOf (k, lv) := by
                      simp only [Prod.mk.sizeOf_spec]; omega
                    simp only [Value.obj.sizeOf_spec]; omega
                  have hrv2 : sizeOf rv < sizeOf (Value.obj rm) := by
                    have : sizeOf rv < sizeOf (k, rv) := by
                      simp only [Prod.mk.sizeOf_spec]; omega
                    simp only [Value.obj.sizeOf_spec]; omega
                  exact ih (sizeOf lv + sizeOf rv) (by omega) lv rv _ (le_refl _)
            | null => exact absurd rfl h3
            | bool b =>
              simp only []
              split_ifs <;> exact allNodes_kindInv_leafnode _ _ _ _
            | num q =>
              simp only []
              split_ifs <;> exact allNodes_kindInv_leafnode _ _ _ _
            | str s =>
              simp only []
              split_ifs <;> exact allNodes_kindInv_leafnode _ _ _ _
            | arr ra =>
              simp only []
              split_ifs <;> exact allNodes_kindInv_leafnode _ _ _ _
          | arr la =>
            cases r with
            | arr ra =>
              simp only []
              rw [allNodes_mk]
              refine ⟨kindInv_agg _ _ _ _, ?_⟩
              intro c hc
              obtain ⟨i, hi, hci⟩ := List.mem_map.mp hc
              subst hci
              cases hl : la.get? i with
              | none =>
                simp only [hl]
                try simp
                exact allNodes_kindInv_leafnode _ _ _ _
              | some lv =>
                cases hr : ra.get? i with
                | none =>
                  simp only [hl, hr]
                  try simp
                  exact allNodes_kindInv_leafnode _ _ _ _
                | some rv =>
                  simp only [hl, hr]
                  try simp
                  have hlv := List.sizeOf_lt_of_mem (List.get?_mem hl)
                  have hrv := List.sizeOf_lt_of_mem (List.get?_mem hr)
                  have hlv2 : sizeOf lv < sizeOf (Value.arr la) := by
                    simp only [Value.arr.sizeOf_spec]; omega
                  have hrv2 : sizeOf rv < sizeOf (Value.arr ra) := by
                    simp only [Value.arr.sizeOf_spec]; omega
                  exact ih (sizeOf lv + sizeOf rv) (by omega) lv rv _ (le_refl _)
            | null => exact absurd rfl h3
            | bool b =>
              simp only []
              split_ifs <;> exact allNodes_kindInv_leafnode _ _ _ _
            | num q =>
              simp only []
              split_ifs <;> exact allNodes_kindInv_leafnode _ _ _ _
            | str s =>
              simp only []
              split_ifs <;> exact allNodes_kindInv_leafnode _ _ _ _
            | obj rm =>
              simp only []
              split_ifs <;> exact allNodes_kindInv_leafnode _ _ _ _
          | null => exact absurd rfl h2
          | bool b =>
            cases r with
            | null => exact absurd rfl h3
            | _ =>
              simp only []
              split_ifs <;> exact allNodes_kindInv_leafnode _ _ _ _
          | num q =>
            cases r with
            | null => exact absurd rfl h3
            | _ =>
              simp only []
              split_ifs <;> exact allNodes_kindInv_leafnode _ _ _ _
          | str s =>
            cases r with
            | null => exact absurd rfl h3
            | _ =>
              simp only []
              split_ifs <;> exact allNodes_kindInv_leafnode _ _ _ _

/-- C6: every node of every diff tree produced by Compare satisfies the
aggregation invariant — a node with a non-empty children sequence has kind
Equal exactly when all children are Equal and kind Changed otherwise; such
a node is never Added or Removed. -/
theorem c6_aggregation_invariant (left right : Value) :
    allNodes kindInv (Compare left right).root := by
  unfold Compare
  exact allNodes_kindInv_cvd (sizeOf left + sizeOf right) left right "" (le_refl _)

/-- Well-formedness of a decoded Go value: object keys are unique at every
level (guaranteed by `map[string]any`). -/
def uniqKeys (v : Value) : Prop :=
  match v with
  | .arr l => ∀ x ∈ l, uniqKeys x
  | .obj m => (m.map Prod.fst).Nodup ∧ ∀ kv ∈ m, uniqKeys kv.2
  | _ => True
termination_by sizeOf v
decreasing_by
  · have := List.sizeOf_lt_of_mem ‹x ∈ l›
    simp only [Value.arr.sizeOf_spec]
    omega
  · have h1 := List.sizeOf_lt_of_mem ‹kv ∈ m›
    have h2 : sizeOf kv.2 < sizeOf kv := by
      obtain ⟨a, b⟩ := kv
      simp only [Prod.mk.sizeOf_spec]
      omega
    simp only [Value.obj.sizeOf_spec]
    omega

/- The number of leaf positions of a value: scalars and empty containers
count one; non-empty containers sum over their elements. This is exactly
the number of leaves of the diff tree `Compare v v` produces. -/
mutual
def leafCount : Value → Nat
  | .null => 1
  | .bool _ => 1
  | .num _ => 1
  | .str _ => 1
  | .arr l => if l.isEmpty then 1 else leafCountList l
  | .obj m => if m.isEmpty then 1 else leafCountEntries m
def leafCountList : List Value → Nat
  | [] => 0
  | x :: xs => leafCount x + leafCountList xs
def leafCountEntries : List (String × Value) → Nat
  | [] => 0
  | kv :: rest => leafCount kv.2 + leafCountEntries rest
end

/-- Member-wise induction principle for `DiffNode`. -/
def DiffNode.recMem {P : DiffNode → Prop}
    (h : ∀ p t l r ch, (∀ c ∈ ch, P c) → P (.mk p t l r ch)) :
    ∀ n, P n := fun n =>
  match n with
  | .mk p t l r ch => h p t l r ch (fun c hc => DiffNode.recMem h c)
termination_by n => sizeOf n
decreasing_by
  have := List.sizeOf_lt_of_mem hc
  simp only [DiffNode.mk.sizeOf_spec]
  omega

def addStats (a b : DiffStats) : DiffStats :=
  ⟨a.added + b.added, a.removed + b.removed, a.changed + b.changed, a.equal + b.equal⟩

def zeroStats : DiffStats := ⟨0, 0, 0, 0⟩

/- The per-subtree contribution of `walkAndCount`: each leaf contributes its
kind once; internal nodes contribute only through their children. -/
mutual
def statsOf : DiffNode → DiffStats
  | .mk _ t _ _ children =>
    addStats (if children.isEmpty then bumpStats zeroStats t else zeroStats)
      (statsOfList children)
def statsOfList : List DiffNode → DiffStats
  | [] => zeroStats
  | c :: cs => addStats (statsOf c) (statsOfList cs)
end

theorem addStats_zero_left (s : DiffStats) : addStats zeroStats s = s := by
  simp [addStats, zeroStats]

theorem addStats_zero_right (s : DiffStats) : addStats s zeroStats = s := by
  simp [addStats, zeroStats]

theorem addStats_assoc (a b c : DiffStats) :
    addStats (addStats a b) c = addStats a (addStats b c) := by
  simp [addStats, Nat.add_assoc]

theorem bumpStats_eq_add (s : DiffStats) (t : DiffType) :
    bumpStats s t = addStats s (bumpStats zeroStats t) := by
  cases t <;> simp [bumpStats, addStats, zeroStats]

theorem walkAndCount_add : ∀ (n : DiffNode) (s : DiffStats),
    walkAndCount s n = addStats s (statsOf n) := by
  intro n
  induction n using DiffNode.recMem with
  | h p t l r ch ih =>
    intro s
    have hlist : ∀ (cs : List DiffNode), (∀ c ∈ cs, ∀ s', walkAndCount s' c = addStats s' (statsOf c)) →
        ∀ s', walkList s' cs = addStats s' (statsOfList cs) := by
      intro cs
      induction cs with
      | nil => intro _ s'; simp [walkList, statsOfList, addStats_zero_right]
      | cons c cs' ihc =>
        intro hcs s'
        rw [walkList, statsOfList]
        rw [hcs c (by simp) s']
        rw [ihc (fun c hc s' => hcs c (by simp [hc]) s') (addStats s' (statsOf c))]
        rw [addStats_assoc]
    rw [walkAndCount, statsOf]
    by_cases he : ch.isEmpty
    · rw [if_pos he, if_pos he]
      rw [hlist ch (fun c hc s' => ih c hc s') (bumpStats s t)]
      rw [bumpStats_eq_add s t, addStats_assoc]
    · rw [if_neg he, if_neg he]
      rw [hlist ch (fun c hc s' => ih c hc s') s]
      rw [addStats_zero_left]

theorem calculateStats_eq (n : DiffNode) : calculateStats n = statsOf n := by
  unfold calculateStats
  rw [show (⟨0, 0, 0, 0⟩ : DiffStats) = zeroStats from rfl]
  rw [walkAndCount_add, addStats_zero_left]

theorem statsOfList_map_equal {β : Type} (g : β → DiffNode) (e : β → Nat) (xs : List β)
    (h : ∀ x ∈ xs, statsOf (g x) = ⟨0, 0, 0, e x⟩) :
    statsOfList (xs.map g) = ⟨0, 0, 0, (xs.map e).sum⟩ := by
  induction xs with
  | nil => simp [statsOfList, zeroStats]
  | cons x xs' ih =>
    rw [List.map_cons, statsOfList, h x (by simp),
      ih (fun y hy => h y (by simp [hy])), List.map_cons, List.sum_cons]
    simp [addStats]

theorem sum_leafCount_range (l : List Value) :
    ((List.range l.length).map (fun i => leafCount ((l.get? i).getD .null))).sum
      = leafCountList l := by
  induction l with
  | nil => simp [leafCountList]
  | cons x xs ih =>
    rw [List.length_cons, List.range_succ_eq_map, List.map_cons, List.map_map]
    simp only [List.get?_cons_zero, Option.getD_some, List.sum_cons]
    have hcongr : (List.range xs.length).map
          ((fun i => leafCount (((x :: xs).get? i).getD Value.null)) ∘ Nat.succ)
        = (List.range xs.length).map (fun i => leafCount ((xs.get? i).getD Value.null)) := by
      apply List.map_congr_left
      intro i hi
      simp [Function.comp, List.get?_cons_succ]
    rw [hcongr, ih, leafCountList]

theorem listLookup_some_of_mem_keys {k : String} {m : List (String × Value)}
    (h : k ∈ m.map Prod.fst) : ∃ v, listLookup k m = some v := by
  induction m with
  | nil => simp at h
  | cons kv rest ih =>
    obtain ⟨k', v'⟩ := kv
    by_cases hk : k = k'
    · exact ⟨v', by simp [listLookup, hk]⟩
    · simp [List.map_cons] at h
      rcases h with h | h
      · exact absurd h hk
      · obtain ⟨v, hv⟩ := ih (by simpa using h)
        exact ⟨v, by simp [listLookup, hk, hv]⟩

theorem sum_leafCount_keys (m : List (String × Value))
    (hnd : (m.map Prod.fst).Nodup) :
    ((m.map Prod.fst).map (fun k => leafCount ((listLookup k m).getD .null))).sum
      = leafCountEntries m := by
  induction m with
  | nil => simp [leafCountEntries]
  | cons kv rest ih =>
    obtain ⟨k0, v0⟩ := kv
    rw [List.map_cons, List.map_cons, List.sum_cons]
    simp only [List.map_cons, List.nodup_cons] at hnd
    have hhead : listLookup k0 ((k0, v0) :: rest) = some v0 := by
      simp [listLookup]
    have hcongr : rest.map ((fun k => leafCount ((listLookup k ((k0, v0) :: rest)).getD Value.null)) ∘ Prod.fst)
        = rest.map ((fun k => leafCount ((listLookup k rest).getD Value.null)) ∘ Prod.fst) := by
      apply List.map_congr_left
      intro kv hkv
      have hne : kv.1 ≠ k0 := by
        intro heq
        exact hnd.1 (heq ▸ List.mem_map_of_mem Prod.fst hkv)
      simp [Function.comp, listLookup, hne]
    rw [hhead]
    simp only [Option.getD_some]
    rw [← List.map_map, ← List.map_map] at *
    rw [hcongr]
    rw [ih hnd.2, leafCountEntries]

theorem aggKind_of_all_equal {ch : List DiffNode}
    (h : ∀ c ∈ ch, c.type = .equal) : aggKind ch = .equal := by
  unfold aggKind
  rw [if_pos]
  simpa using h

theorem sortedUnionKeys_self_perm (m : List (String × Value))
    (hnd : (m.map Prod.fst).Nodup) :
    List.Perm (sortedUnionKeys m m) (m.map Prod.fst) := by
  have h1 := insertionSortGo_perm (fun a b : String => decide (a < b))
    ((m.map Prod.fst ++ m.map Prod.fst).dedup)
  have h2 : List.Perm ((m.map Prod.fst ++ m.map Prod.fst).dedup) (m.map Prod.fst) := by
    apply List.perm_of_nodup_nodup_toFinset_eq (List.nodup_dedup _) hnd
    ext a
    simp [List.mem_dedup, List.mem_append]
  exact h1.trans h2

/-- The child `compareObjects` builds for one key (property-level form). -/
def objChild (lm rm : List (String × Value)) (p : String) (k : String) : DiffNode :=
  if listLookup k lm = none then
    .mk (p ++ "." ++ k) .added none (listLookup k rm) []
  else if listLookup k rm = none then
    .mk (p ++ "." ++ k) .removed (listLookup k lm) none []
  else
    compareValuesDiff ((listLookup k lm).getD .null) ((listLookup k rm).getD .null)
      (p ++ "." ++ k)

/-- The child `compareArrays` builds for one index (property-level form). -/
def arrChild (la ra : List Value) (p : String) (i : Nat) : DiffNode :=
  if la.get? i = none then
    .mk (p ++ "[" ++ toString i ++ "]") .added none (ra.get? i) []
  else if ra.get? i = none then
    .mk (p ++ "[" ++ toString i ++ "]") .removed (la.get? i) none []
  else
    compareValuesDiff ((la.get? i).getD .null) ((ra.get? i).getD .null)
      (p ++ "[" ++ toString i ++ "]")

theorem cvd_obj_eq (lm rm : List (String × Value)) (p : String) :
    compareValuesDiff (.obj lm) (.obj rm) p
      = .mk p (aggKind ((sortedUnionKeys lm rm).map (objChild lm rm p))) none none
          ((sortedUnionKeys lm rm).map (objChild lm rm p)) := by
  rw [compareValuesDiff.eq_def]
  rw [if_neg (by simp : ¬ (Value.obj lm = Value.null ∧ Value.obj rm = Value.null)),
    if_neg (by simp : ¬ (Value.obj lm = Value.null)),
    if_neg (by simp : ¬ (Value.obj rm = Value.null))]
  simp only []
  have hmap : ∀ ks : List String, ks.map (fun k =>
        match _h1 : listLookup k lm, _h2 : listLookup k rm with
        | none, rv? => DiffNode.mk (p ++ "." ++ k) .added none rv? []
        | some lv, none => DiffNode.mk (p ++ "." ++ k) .removed (some lv) none []
        | some lv, some rv => compareValuesDiff lv rv (p ++ "." ++ k))
      = ks.map (objChild lm rm p) := by
    intro ks
    apply List.map_congr_left
    intro k _
    cases h1 : listLookup k lm with
    | none => simp [h1, objChild]
    | some lv =>
      cases h2 : listLookup k rm with
      | none => simp [h1, h2, objChild]
      | some rv => simp [h1, h2, objChild]
  rw [hmap]

theorem cvd_arr_eq (la ra : List Value) (p : String) :
    compareValuesDiff (.arr la) (.arr ra) p
      = .mk p
          (aggKind ((List.range (if ra.length > la.length then ra.length else la.length)).map
            (arrChild la ra p)))
          none none
          ((List.range (if ra.length > la.length then ra.length else la.length)).map
            (arrChild la ra p)) := by
  rw [compareValuesDiff.eq_def]
  rw [if_neg (by simp : ¬ (Value.arr la = Value.null ∧ Value.arr ra = Value.null)),
    if_neg (by simp : ¬ (Value.arr la = Value.null)),
    if_neg (by simp : ¬ (Value.arr ra = Value.null))]
  simp only []
  have hmap : ∀ ns : List Nat, ns.map (fun i =>
        match _h1 : la.get? i, _h2 : ra.get? i with
        | none, rv? => DiffNode.mk (p ++ "[" ++ toString i ++ "]") .added none rv? []
        | some lv, none => DiffNode.mk (p ++ "[" ++ toString i ++ "]") .removed (some lv) none []
        | some lv, some rv => compareValuesDiff lv rv (p ++ "[" ++ toString i ++ "]"))
      = ns.map (arrChild la ra p) := by
    intro ns
    apply List.map_congr_left
    intro i _
    cases h1 : la.get? i with
    | none =>
      have hlen : la.length ≤ i := List.get?_eq_none.mp h1
      simp [h1, arrChild, hlen]
    | some lv =>
      have hlt : i < la.length := by
        by_contra hcon
        rw [List.get?_eq_none.mpr (Nat.le_of_not_lt hcon)] at h1
        exact Option.noConfusion h1
      have h1g : la[i]? = some lv := by rw [← List.get?_eq_getElem?]; exact h1
      cases h2 : ra.get? i with
      | none =>
        have hlen2 : ra.length ≤ i := List.get?_eq_none.mp h2
        simp [h1, h2, h1g, arrChild, Nat.not_le.mpr hlt, hlen2]
      | some rv =>
        have hlt2 : i < ra.length := by
          by_contra hcon
          rw [List.get?_eq_none.mpr (Nat.le_of_not_lt hcon)] at h2
          exact Option.noConfusion h2
        have h2g : ra[i]? = some rv := by rw [← List.get?_eq_getElem?]; exact h2
        simp [h1, h2, h1g, h2g, arrChild, Nat.not_le.mpr hlt, Nat.not_le.mpr hlt2]
  rw [hmap]

theorem uniqKeys_arr_iff (l : List Value) :
    uniqKeys (.arr l) ↔ ∀ x ∈ l, uniqKeys x := by
  rw [uniqKeys]

theorem uniqKeys_obj_iff (m : List (String × Value)) :
    uniqKeys (.obj m) ↔ (m.map Prod.fst).Nodup ∧ ∀ kv ∈ m, uniqKeys kv.2 := by
  rw [uniqKeys]

theorem isEmpty_false_of_ne_nil {ys : List α} (h : ys ≠ []) : ys.isEmpty = false := by
  cases ys with
  | nil => exact absurd rfl h
  | cons y ys' => rfl

theorem selfCompare (v : Value) : uniqKeys v → ∀ p : String,
    (compareValuesDiff v v p).type = .equal ∧
    statsOf (compareValuesDiff v v p) = ⟨0, 0, 0, leafCount v⟩ := by
  induction v using Value.recMem with
  | h0 =>
    intro _ p
    rw [compareValuesDiff.eq_def]
    rw [if_pos ⟨rfl, rfl⟩]
    exact ⟨rfl, by simp [statsOf, statsOfList, bumpStats, zeroStats, addStats, leafCount]⟩
  | h1 b =>
    intro _ p
    rw [compareValuesDiff.eq_def]
    have hne : ¬ (Value.bool b = Value.null) := by simp
    rw [if_neg (fun hand => hne hand.1), if_neg hne, if_neg hne]
    simp only []
    rw [if_neg (by simp), if_pos ((deepEqual_iff _ _).mpr rfl)]
    exact ⟨rfl, by simp [statsOf, statsOfList, bumpStats, zeroStats, addStats, leafCount]⟩
  | h2 q =>
    intro _ p
    rw [compareValuesDiff.eq_def]
    have hne : ¬ (Value.num q = Value.null) := by simp
    rw [if_neg (fun hand => hne hand.1), if_neg hne, if_neg hne]
    simp only []
    rw [if_neg (by simp), if_pos ((deepEqual_iff _ _).mpr rfl)]
    exact ⟨rfl, by simp [statsOf, statsOfList, bumpStats, zeroStats, addStats, leafCount]⟩
  | h3 s =>
    intro _ p
    rw [compareValuesDiff.eq_def]
    have hne : ¬ (Value.str s = Value.null) := by simp
    rw [if_neg (fun hand => hne hand.1), if_neg hne, if_neg hne]
    simp only []
    rw [if_neg (by simp), if_pos ((deepEqual_iff _ _).mpr rfl)]
    exact ⟨rfl, by simp [statsOf, statsOfList, bumpStats, zeroStats, addStats, leafCount]⟩
  | h4 l ih =>
    intro hu p
    have hu' := (uniqKeys_arr_iff l).mp hu
    rw [cvd_arr_eq]
    have hmax : (if l.length > l.length then l.length else l.length) = l.length :=
      if_neg (lt_irrefl _)
    rw [hmax]
    have hch : ∀ i ∈ List.range l.length,
        (arrChild l l p i).type = .equal ∧
        statsOf (arrChild l l p i)
          = ⟨0, 0, 0, leafCount ((l.get? i).getD Value.null)⟩ := by
      intro i hi
      rw [List.mem_range] at hi
      obtain ⟨lv, hlv⟩ : ∃ lv, l.get? i = some lv := by
        cases hg : l.get? i with
        | none =>
          rw [List.get?_eq_none] at hg
          omega
        | some lv => exact ⟨lv, rfl⟩
      have hmem : lv ∈ l := List.get?_mem hlv
      have hres := ih lv hmem (hu' lv hmem) (p ++ "[" ++ toString i ++ "]")
      unfold arrChild
      rw [hlv]
      rw [if_neg (by simp), if_neg (by simp)]
      simpa using hres
    constructor
    · simp only [DiffNode.type_mk]
      apply aggKind_of_all_equal
      intro c hc
      obtain ⟨i, hi, rfl⟩ := List.mem_map.mp hc
      exact (hch i hi).1
    · by_cases hl : l = []
      · subst hl
        simp [statsOf, statsOfList, aggKind, bumpStats, zeroStats, addStats, leafCount]
      · have hlen0 : l.length ≠ 0 := fun h => hl (List.length_eq_zero.mp h)
        have hrne : List.range l.length ≠ [] := by
          intro hr
          have hcl := congrArg List.length hr
          rw [List.length_range, List.length_nil] at hcl
          exact hlen0 hcl
        have hcne : (List.range l.length).map (arrChild l l p) ≠ [] := by
          intro hc
          exact hrne (List.map_eq_nil_iff.mp hc)
        rw [statsOf]
        rw [isEmpty_false_of_ne_nil hcne]
        simp only [Bool.false_eq_true, if_false]
        rw [addStats_zero_left]
        rw [statsOfList_map_equal (arrChild l l p)
          (fun i => leafCount ((l.get? i).getD Value.null)) _
          (fun i hi => (hch i hi).2)]
        rw [sum_leafCount_range]
        have hleaf : leafCount (.arr l) = leafCountList l := by
          rw [leafCount, isEmpty_false_of_ne_nil hl]
          simp
        rw [hleaf]
  | h5 m ih =>
    intro hu p
    have hu2 := (uniqKeys_obj_iff m).mp hu
    rw [cvd_obj_eq]
    have hch : ∀ k ∈ sortedUnionKeys m m,
        (objChild m m p k).type = .equal ∧
        statsOf (objChild m m p k)
          = ⟨0, 0, 0, leafCount ((listLookup k m).getD Value.null)⟩ := by
      intro k hk
      have hk2 : k ∈ m.map Prod.fst := by
        have hor := (mem_sortedUnionKeys m m k).mp hk
        rcases hor with h | h <;> exact h
      obtain ⟨v, hv⟩ := listLookup_some_of_mem_keys hk2
      have hmem : (k, v) ∈ m := listLookup_mem hv
      have hres := ih (k, v) hmem (hu2.2 (k, v) hmem) (p ++ "." ++ k)
      unfold objChild
      rw [hv]
      rw [if_neg (by simp), if_neg (by simp)]
      simpa using hres
    have hperm := sortedUnionKeys_self_perm m hu2.1
    constructor
    · simp only [DiffNode.type_mk]
      apply aggKind_of_all_equal
      intro c hc
      obtain ⟨k, hk, rfl⟩ := List.mem_map.mp hc
      exact (hch k hk).1
    · by_cases hm : m = []
      · subst hm
        simp [statsOf, statsOfList, aggKind, bumpStats, zeroStats, addStats, leafCount,
          sortedUnionKeys, insertionSortGo, List.dedup]
      · have hksne : sortedUnionKeys m m ≠ [] := by
          intro hknil
          have hlen := hperm.length_eq
          rw [hknil] at hlen
          simp only [List.length_nil] at hlen
          have hmap0 : (m.map Prod.fst).length = 0 := hlen.symm
          rw [List.length_map] at hmap0
          exact hm (List.length_eq_zero.mp hmap0)
        have hcne : (sortedUnionKeys m m).map (objChild m m p) ≠ [] := by
          intro hcn
          exact hksne (List.map_eq_nil_iff.mp hcn)
        rw [statsOf]
        rw [isEmpty_false_of_ne_nil hcne]
        simp only [Bool.false_eq_true, if_false]
        rw [addStats_zero_left]
        rw [statsOfList_map_equal (objChild m m p)
          (fun k => leafCount ((listLookup k m).getD Value.null)) _
          (fun k hk => (hch k hk).2)]
        have hsum : ((sortedUnionKeys m m).map
              (fun k => leafCount ((listLookup k m).getD Value.null))).sum
            = ((m.map Prod.fst).map
              (fun k => leafCount ((listLookup k m).getD Value.null))).sum :=
          (hperm.map _).sum_eq
        rw [hsum, sum_leafCount_keys m hu2.1]
        have hleaf : leafCount (.obj m) = leafCountEntries m := by
          rw [leafCount, isEmpty_false_of_ne_nil hm]
          simp
        rw [hleaf]

/-- C7: self-equality — for every well-formed value `v` (unique object keys
at every level, as Go maps guarantee), `Compare v v` has root kind Equal and
its stats have `equal` = number of leaf positions of `v` with the added,
removed and changed counters zero. -/
theorem c7_self_equality (v : Value) (h : uniqKeys v) :
    (Compare v v).root.type = .equal ∧
    (Compare v v).stats = ⟨0, 0, 0, leafCount v⟩ := by
  have hres := selfCompare v h ""
  unfold Compare
  simp only []
  exact ⟨hres.1, by rw [calculateStats_eq]; exact hres.2⟩

theorem c7_self_equality_witness :
    uniqKeys (Value.obj [("a", Value.num 1)]) ∧
    (Compare (Value.obj [("a", Value.num 1)]) (Value.obj [("a", Value.num 1)])).root.type
      = .equal ∧
    (Compare (Value.obj [("a", Value.num 1)]) (Value.obj [("a", Value.num 1)])).stats
      = ⟨0, 0, 0, 1⟩ := by
  have hu : uniqKeys (Value.obj [("a", Value.num 1)]) := by
    rw [uniqKeys]
    constructor
    · simp
    · intro kv hkv
      simp at hkv
      rw [hkv, uniqKeys]
      trivial
      all_goals (intro x hx; simp at hx)
  refine ⟨hu, (c7_self_equality _ hu).1, ?_⟩
  have hres := (c7_self_equality _ hu).2
  exact hres
